import Mathlib

/-!
# Verification of the wireless-communication simulation engine

A shallow embedding, in Lean 4 over `ℝ` and `ℂ`, of the numeric core of an
educational wireless-communication toolset:

* the Erlang-B blocking probability recursion (`calculateErlangB`),
* the log-distance path-loss / handoff tick of the propagation simulator,
* the channel-occupancy (trunking) simulation tick,
* the Doppler kinematics model (`calculatePhysics`),
* the multipath geometric channel model (`multipathData`),
* the five-stage signal-recovery DSP pipeline
  (`generateSignal`, `generateChannel`, `convolveSignals`, `performFFT`,
  `performEqualization`), with the DFT modelled exactly.

JavaScript `number` arithmetic is modelled by exact real arithmetic; the
ambient `Math.random()` draws are modelled as explicit real-valued inputs.
-/

open Finset

/-! ## Erlang traffic model (`calculateErlangB` from the utils module) -/

/-- The loop of `calculateErlangB`: starting from `b = 1`, perform
`b := (a * b) / (i + a * b)` for `i = 1 .. c`.  `erlangBLoop a c` is the value
of `b` after the iteration `i = c`. -/
noncomputable def erlangBLoop (a : ℝ) : ℕ → ℝ
  | 0 => 1
  | c + 1 => (a * erlangBLoop a c) / (((c : ℝ) + 1) + a * erlangBLoop a c)

/-- `calculateErlangB c a`: returns `0` when `a === 0`, otherwise runs the
recursive loop `b = (a*b)/(i + a*b)` for `i = 1..c` starting from `b = 1`. -/
noncomputable def calculateErlangB (c : ℕ) (a : ℝ) : ℝ :=
  if a = 0 then 0 else erlangBLoop a c

theorem erlangBLoop_pos (a : ℝ) (ha : 0 < a) : ∀ c : ℕ, 0 < erlangBLoop a c := by
  intro c
  induction c with
  | zero => norm_num [erlangBLoop]
  | succ c ih =>
    rw [erlangBLoop]
    apply div_pos (mul_pos ha ih)
    positivity

theorem erlangBLoop_le_one (a : ℝ) (ha : 0 < a) : ∀ c : ℕ, erlangBLoop a c ≤ 1 := by
  intro c
  induction c with
  | zero => norm_num [erlangBLoop]
  | succ c _ =>
    have hB := erlangBLoop_pos a ha c
    rw [erlangBLoop]
    rw [div_le_one (by nlinarith)]
    nlinarith

/-- Carried-traffic bound: `a * (1 - B(c)) ≤ c`; the offered load actually
carried by the `c` servers never exceeds `c`. -/
theorem erlangBLoop_carried (a : ℝ) (ha : 0 < a) : ∀ c : ℕ, a * (1 - erlangBLoop a c) ≤ c := by
  intro c
  induction c with
  | zero => norm_num [erlangBLoop]
  | succ c ih =>
    have hB := erlangBLoop_pos a ha c
    have hD : (0:ℝ) < ((c : ℝ) + 1) + a * erlangBLoop a c := by positivity
    rw [erlangBLoop]
    rw [show (1 : ℝ) - (a * erlangBLoop a c) / (((c : ℝ) + 1) + a * erlangBLoop a c)
        = (((c : ℝ) + 1)) / (((c : ℝ) + 1) + a * erlangBLoop a c) by
      field_simp]
    rw [← mul_div_assoc, div_le_iff₀ hD]
    push_cast
    nlinarith

theorem erlangBLoop_antitone (a : ℝ) (ha : 0 < a) {c₁ c₂ : ℕ} (h : c₁ ≤ c₂) :
    erlangBLoop a c₂ ≤ erlangBLoop a c₁ := by
  induction c₂ with
  | zero => simp_all
  | succ c ih =>
    rcases Nat.lt_or_ge c₁ (c + 1) with hlt | hge
    · have step : erlangBLoop a (c + 1) ≤ erlangBLoop a c := by
        have hB := erlangBLoop_pos a ha c
        have hD : (0:ℝ) < ((c : ℝ) + 1) + a * erlangBLoop a c := by positivity
        rw [erlangBLoop, div_le_iff₀ hD]
        nlinarith [erlangBLoop_carried a ha c]
      exact le_trans step (ih (Nat.lt_succ_iff.mp hlt))
    · have : c₁ = c + 1 := le_antisymm h hge
      simp [this]

theorem erlangBLoop_mono_load (a₁ a₂ : ℝ) (h₁ : 0 < a₁) (h : a₁ ≤ a₂) :
    ∀ c : ℕ, erlangBLoop a₁ c ≤ erlangBLoop a₂ c := by
  intro c
  have h₂ : 0 < a₂ := lt_of_lt_of_le h₁ h
  induction c with
  | zero => simp [erlangBLoop]
  | succ c ih =>
    have hB₁ := erlangBLoop_pos a₁ h₁ c
    have hB₂ := erlangBLoop_pos a₂ h₂ c
    have ht : a₁ * erlangBLoop a₁ c ≤ a₂ * erlangBLoop a₂ c :=
      mul_le_mul h ih (le_of_lt hB₁) (le_of_lt h₂)
    rw [erlangBLoop, erlangBLoop]
    rw [div_le_div_iff₀ (by nlinarith) (by nlinarith)]
    nlinarith

/-- **C2 (counterexample)**: with `channels = 0` and `load = 1`, the Erlang B
function returns `1`, not `0`: the `a === 0` early return does not fire and the
loop body never runs, leaving the initial `b = 1`. -/
theorem calculateErlangB_zero_channels_ne_zero : calculateErlangB 0 1 ≠ 0 := by
  norm_num [calculateErlangB, erlangBLoop]

/-- **C2 (amended)**: for every `load ≥ 0`, `calculateErlangB` called with
`channels = 0` returns `0` when `load = 0` (via the `a === 0` early return) and
`1` when `load > 0` (the recursion base case `B(0) = 1`, reached with no loop
iterations and hence without performing any division at all). -/
theorem calculateErlangB_zero_channels (a : ℝ) (_ha : 0 ≤ a) :
    calculateErlangB 0 a = if a = 0 then 0 else 1 := by
  unfold calculateErlangB erlangBLoop
  rfl

theorem calculateErlangB_zero_channels_witness :
    (0:ℝ) ≤ 1 ∧ calculateErlangB 0 1 = if (1:ℝ) = 0 then 0 else 1 :=
  ⟨by norm_num, calculateErlangB_zero_channels 1 (by norm_num)⟩

/-- **C3**: Erlang-B monotonicity.  For every fixed `channels ≥ 1` the blocking
probability `calculateErlangB channels load` is non-decreasing in `load` on
`load ≥ 0`, and for every fixed `load > 0` it is non-increasing in `channels`. -/
theorem calculateErlangB_monotone :
    (∀ (c : ℕ) (a₁ a₂ : ℝ), 1 ≤ c → 0 ≤ a₁ → a₁ ≤ a₂ →
      calculateErlangB c a₁ ≤ calculateErlangB c a₂) ∧
    (∀ (c₁ c₂ : ℕ) (a : ℝ), 0 < a → c₁ ≤ c₂ →
      calculateErlangB c₂ a ≤ calculateErlangB c₁ a) := by
  constructor
  · intro c a₁ a₂ _hc ha₁ h12
    unfold calculateErlangB
    rcases eq_or_lt_of_le ha₁ with h0 | hpos₁
    · rw [if_pos h0.symm]
      split
      · exact le_refl 0
      · rename_i ha₂
        have : 0 < a₂ := lt_of_le_of_ne (le_trans ha₁ h12) (Ne.symm ha₂)
        exact le_of_lt (erlangBLoop_pos a₂ this c)
    · rw [if_neg (ne_of_gt hpos₁), if_neg (ne_of_gt (lt_of_lt_of_le hpos₁ h12))]
      exact erlangBLoop_mono_load a₁ a₂ hpos₁ h12 c
  · intro c₁ c₂ a ha hc
    unfold calculateErlangB
    rw [if_neg (ne_of_gt ha), if_neg (ne_of_gt ha)]
    exact erlangBLoop_antitone a ha hc

theorem calculateErlangB_monotone_witness :
    calculateErlangB 2 1 ≤ calculateErlangB 2 2 ∧ calculateErlangB 2 1 ≤ calculateErlangB 1 1 :=
  ⟨calculateErlangB_monotone.1 2 1 2 (by norm_num) (by norm_num) (by norm_num),
   calculateErlangB_monotone.2 1 2 1 (by norm_num) (by norm_num)⟩

/-! ## Path-loss & handoff state machine (`PropagationSimulator`) -/

/-- Environment selector: `'urban'` or `'highway'`. -/
inductive Env
  | urban
  | highway
deriving DecidableEq

/-- Handoff algorithm selector: `'threshold'` or `'hysteresis'`. -/
inductive HandoffMode
  | threshold
  | hysteresis
deriving DecidableEq

/-- `P_TX = 30` dBm. -/
noncomputable def P_TX : ℝ := 30

/-- `P_MIN = -90` dBm (usable threshold). -/
noncomputable def P_MIN : ℝ := -90

/-- `TOTAL_DIST`: `1000` m for urban, `10000` m for highway. -/
noncomputable def TOTAL_DIST : Env → ℝ
  | .urban => 1000
  | .highway => 10000

/-- Path-loss exponent: `4.0` urban, `3.0` highway. -/
noncomputable def gammaOf : Env → ℝ
  | .urban => 4.0
  | .highway => 3.0

/-- The noiseless log-distance path-loss model with a general exponent `gamma`:
`Ptx - 10*gamma*log10(max(d, 1))`.  `calculateSignal` instantiates `gamma` from
the environment. -/
noncomputable def pathLossSignal (gamma d : ℝ) : ℝ :=
  P_TX - 10 * gamma * Real.logb 10 (max d 1)

/-- `calculateSignal(d, env, noiseScale)`, with the `Math.random()` draw made
explicit as `r`: the base log-distance signal, plus the uniform jitter
`r*noiseScale - noiseScale/2` when `noiseScale > 0`. -/
noncomputable def calculateSignal (d : ℝ) (env : Env) (noiseScale r : ℝ) : ℝ :=
  let baseSignal := pathLossSignal (gammaOf env) d
  if noiseScale > 0 then baseSignal + (r * noiseScale - noiseScale / 2) else baseSignal

/-- The hysteresis-mode branch of `theoreticalHOPoint`:
`factor = 10^(H/(10*gamma))`, position `= totalDist*factor/(1+factor)`.
In the component, `gamma` and `totalDist` are derived from the environment. -/
noncomputable def theoreticalHOPointHysteresis (gamma totalDist H : ℝ) : ℝ :=
  let factor := (10:ℝ) ^ (H / (10 * gamma))
  totalDist * factor / (1 + factor)

/-- Event kinds recorded by the handoff simulator. -/
inductive HOEventKind
  | handoff
  | drop
deriving DecidableEq

/-- The mutable state touched by one handoff simulation tick. -/
structure HOState where
  uePosition : ℝ
  activeBS : ℕ
  handoffEvents : List (ℝ × HOEventKind)
  isMoving : Bool
  isPingPonging : Bool
  handoffInLastTick : Bool

/-- One tick of the handoff simulation loop (the `setInterval` body): advance
the position by `velocity * dt` (`dt = 1`), stop at the far boundary, then
check the drop condition, then run the mode-dependent handoff logic, then
update the ping-pong flags.  The two `Math.random()` draws made inside the two
`calculateSignal` calls are passed in as `r1`, `r2`. -/
noncomputable def propagationTick (env : Env) (mode : HandoffMode)
    (ueSpeed thresholdMargin hysteresisMargin r1 r2 : ℝ) (st : HOState) : HOState :=
  let velocity := ueSpeed / 3.6
  let next := st.uePosition + velocity * 1
  if next ≥ TOTAL_DIST env then
    { st with uePosition := TOTAL_DIST env, isMoving := false }
  else
    let s1 := calculateSignal next env 1.5 r1
    let s2 := calculateSignal (TOTAL_DIST env - next) env 1.5 r2
    let currentRSSI := if st.activeBS = 1 then s1 else s2
    if currentRSSI < P_MIN then
      { st with isMoving := false,
                handoffEvents := st.handoffEvents ++ [(next, HOEventKind.drop)],
                isPingPonging := false }
    else
      let ho : ℕ × Bool :=
        match mode with
        | .threshold =>
            if st.activeBS = 1 then
              if s1 < P_MIN + thresholdMargin then (2, true) else (st.activeBS, false)
            else
              if s2 < P_MIN + thresholdMargin then (1, true) else (st.activeBS, false)
        | .hysteresis =>
            if st.activeBS = 1 then
              if s2 > s1 + hysteresisMargin then (2, true) else (st.activeBS, false)
            else
              if s1 > s2 + hysteresisMargin then (1, true) else (st.activeBS, false)
      { uePosition := next,
        activeBS := ho.1,
        handoffEvents :=
          if ho.2 then st.handoffEvents ++ [(next, HOEventKind.handoff)] else st.handoffEvents,
        isMoving := st.isMoving,
        isPingPonging :=
          if ho.2 ∧ st.handoffInLastTick then true
          else if ¬ ho.2 then false else st.isPingPonging,
        handoffInLastTick := ho.2 }

/-- **C5**: in the noiseless log-distance model, the hysteresis-mode
theoretical handoff point `p = totalDist*factor/(1+factor)` with
`factor = 10^(H/(10*gamma))` satisfies `signal(totalDist - p) = signal(p) + H`,
for every `H ≥ 0`, `gamma > 0`, and `totalDist` large enough that `p` and
`totalDist - p` are both at least `1`. -/
theorem theoreticalHOPoint_hysteresis_balance (gamma H D : ℝ)
    (hg : 0 < gamma) (_hH : 0 ≤ H)
    (h1 : 1 ≤ theoreticalHOPointHysteresis gamma D H)
    (h2 : 1 ≤ D - theoreticalHOPointHysteresis gamma D H) :
    pathLossSignal gamma (D - theoreticalHOPointHysteresis gamma D H)
      = pathLossSignal gamma (theoreticalHOPointHysteresis gamma D H) + H := by
  set f : ℝ := (10:ℝ) ^ (H / (10 * gamma)) with hf_def
  have hf : 0 < f := Real.rpow_pos_of_pos (by norm_num) _
  have hp_def : theoreticalHOPointHysteresis gamma D H = D * f / (1 + f) := rfl
  rw [hp_def] at h1 h2 ⊢
  set p : ℝ := D * f / (1 + f) with hp
  have hppos : (0:ℝ) < p := lt_of_lt_of_le one_pos h1
  have hqpos : (0:ℝ) < D - p := lt_of_lt_of_le one_pos h2
  have hD : (0:ℝ) < D := by linarith
  have h1f : (0:ℝ) < 1 + f := by linarith
  have hq_eq : D - p = D / (1 + f) := by
    rw [hp]
    field_simp
    ring
  have hratio : p / (D - p) = f := by
    rw [hq_eq, hp]
    rw [div_div_div_comm]
    rw [div_self (ne_of_gt h1f), div_one, mul_comm]
    exact mul_div_cancel_right₀ f (ne_of_gt hD)
  unfold pathLossSignal
  rw [max_eq_left h1, max_eq_left h2]
  have hlog : Real.logb 10 p - Real.logb 10 (D - p) = H / (10 * gamma) := by
    rw [← Real.logb_div (ne_of_gt hppos) (ne_of_gt hqpos), hratio, hf_def]
    exact Real.logb_rpow (by norm_num) (by norm_num)
  have hexp : 10 * gamma * (Real.logb 10 p - Real.logb 10 (D - p)) = H := by
    rw [hlog]
    field_simp
  linarith [hexp]

theorem theoreticalHOPoint_hysteresis_balance_witness :
    (0:ℝ) < 3 ∧ (0:ℝ) ≤ 0 ∧ 1 ≤ theoreticalHOPointHysteresis 3 10 0 ∧
      1 ≤ 10 - theoreticalHOPointHysteresis 3 10 0 ∧
      pathLossSignal 3 (10 - theoreticalHOPointHysteresis 3 10 0)
        = pathLossSignal 3 (theoreticalHOPointHysteresis 3 10 0) + 0 := by
  have hp : theoreticalHOPointHysteresis 3 10 0 = 5 := by
    unfold theoreticalHOPointHysteresis
    norm_num
  refine ⟨by norm_num, le_refl 0, ?_, ?_, ?_⟩
  · rw [hp]; norm_num
  · rw [hp]; norm_num
  · exact theoreticalHOPoint_hysteresis_balance 3 0 10 (by norm_num) (le_refl 0)
      (by rw [hp]; norm_num) (by rw [hp]; norm_num)

/-- **C6**: on a handoff tick that reaches the drop check (the advanced
position stays short of the far boundary), if the currently serving base
station's signal — as computed in that tick, jitter included — is below
`P_MIN`, then the tick records exactly one event, of kind `drop`, stops
movement, and leaves both the position and the serving cell unchanged; no
handoff happens in that tick. -/
theorem propagationTick_drop (env : Env) (mode : HandoffMode)
    (ueSpeed thresholdMargin hysteresisMargin r1 r2 : ℝ) (st : HOState)
    (hnext : st.uePosition + ueSpeed / 3.6 * 1 < TOTAL_DIST env)
    (hdrop : (if st.activeBS = 1 then
          calculateSignal (st.uePosition + ueSpeed / 3.6 * 1) env 1.5 r1
        else
          calculateSignal (TOTAL_DIST env - (st.uePosition + ueSpeed / 3.6 * 1)) env 1.5 r2)
        < P_MIN) :
    (propagationTick env mode ueSpeed thresholdMargin hysteresisMargin r1 r2 st).handoffEvents
        = st.handoffEvents ++ [(st.uePosition + ueSpeed / 3.6 * 1, HOEventKind.drop)] ∧
    (propagationTick env mode ueSpeed thresholdMargin hysteresisMargin r1 r2 st).isMoving = false ∧
    (propagationTick env mode ueSpeed thresholdMargin hysteresisMargin r1 r2 st).uePosition
        = st.uePosition ∧
    (propagationTick env mode ueSpeed thresholdMargin hysteresisMargin r1 r2 st).activeBS
        = st.activeBS := by
  unfold propagationTick
  rw [if_neg (not_le.mpr hnext), if_pos hdrop]
  exact ⟨rfl, rfl, rfl, rfl⟩

/-- Numeric bound used by the drop-condition witness: `log10 9900 > 3.975`. -/
theorem logb_ninetyNineHundred : (3.975:ℝ) < Real.logb 10 9900 := by
  rw [Real.lt_logb_iff_rpow_lt (by norm_num) (by norm_num)]
  have h4 : (10:ℝ) ^ (4:ℝ) = 10000 := by
    rw [show (4:ℝ) = ((4:ℕ):ℝ) by norm_num, Real.rpow_natCast]
    norm_num
  have hsub : (10:ℝ) ^ (3.975:ℝ) = 10000 / (10:ℝ) ^ (0.025:ℝ) := by
    rw [show (3.975:ℝ) = 4 - 0.025 by norm_num, Real.rpow_sub (by norm_num), h4]
  rw [hsub]
  have hlog10 : (2:ℝ) ≤ Real.log 10 := by
    rw [Real.le_log_iff_exp_le (by norm_num)]
    have he := Real.exp_one_lt_d9
    have h2 : Real.exp 2 = Real.exp 1 * Real.exp 1 := by
      rw [← Real.exp_add]; norm_num
    nlinarith [Real.exp_pos 1]
  have hpow : (1.05:ℝ) ≤ (10:ℝ) ^ (0.025:ℝ) := by
    rw [Real.rpow_def_of_pos (by norm_num)]
    have := Real.add_one_le_exp (Real.log 10 * 0.025)
    nlinarith
  rw [div_lt_iff₀ (by positivity)]
  nlinarith

theorem propagationTick_drop_witness :
    ((99:ℝ) + 3.6 / 3.6 * 1 < TOTAL_DIST Env.highway) ∧
    ((propagationTick Env.highway HandoffMode.hysteresis 3.6 10 6 0 0
        ⟨99, 2, [], true, false, false⟩).handoffEvents
      = [] ++ [((99:ℝ) + 3.6 / 3.6 * 1, HOEventKind.drop)] ∧
     (propagationTick Env.highway HandoffMode.hysteresis 3.6 10 6 0 0
        ⟨99, 2, [], true, false, false⟩).isMoving = false ∧
     (propagationTick Env.highway HandoffMode.hysteresis 3.6 10 6 0 0
        ⟨99, 2, [], true, false, false⟩).uePosition = 99 ∧
     (propagationTick Env.highway HandoffMode.hysteresis 3.6 10 6 0 0
        ⟨99, 2, [], true, false, false⟩).activeBS = 2) := by
  have hnext : (99:ℝ) + 3.6 / 3.6 * 1 < TOTAL_DIST Env.highway := by
    unfold TOTAL_DIST; norm_num
  have hdist : TOTAL_DIST Env.highway - ((99:ℝ) + 3.6 / 3.6 * 1) = 9900 := by
    unfold TOTAL_DIST; norm_num
  have hdrop :
      (if (⟨99, 2, [], true, false, false⟩ : HOState).activeBS = 1 then
          calculateSignal ((99:ℝ) + 3.6 / 3.6 * 1) Env.highway 1.5 0
        else
          calculateSignal (TOTAL_DIST Env.highway - ((99:ℝ) + 3.6 / 3.6 * 1)) Env.highway 1.5 0)
        < P_MIN := by
    have hbs : (⟨99, 2, [], true, false, false⟩ : HOState).activeBS = 2 := rfl
    rw [hbs, if_neg (by norm_num : ¬ (2:ℕ) = 1), hdist]
    unfold calculateSignal pathLossSignal gammaOf P_TX P_MIN
    rw [if_pos (by norm_num : (1.5:ℝ) > 0), max_eq_left (by norm_num : (1:ℝ) ≤ 9900)]
    nlinarith [logb_ninetyNineHundred]
  exact ⟨hnext, propagationTick_drop Env.highway HandoffMode.hysteresis 3.6 10 6 0 0
    ⟨99, 2, [], true, false, false⟩ hnext hdrop⟩

/-! ## Channel-occupancy simulator (`TrunkingSimulator` tick) -/

/-- Event kinds of the occupancy simulator.  The source's `'end'` kind is
spelled `ended` here because `end` is a reserved word in Lean; the `id` and
wall-clock `time` metadata of an event are not modelled. -/
inductive TrunkEventType
  | success
  | drop
  | ended
deriving DecidableEq

/-- Occupancy simulation state: busy-channel count, call counters, and the
bounded event log (most recent first). -/
structure TrunkState where
  currentBusy : ℕ
  totalCalls : ℕ
  droppedCalls : ℕ
  events : List TrunkEventType

/-- One tick of the occupancy simulation loop (`dt = 0.1`): the arrival phase
(draw `randArrival` against `arrivalRate*dt`; success or drop depending on
capacity), then the departure phase (draw `randDeparture` against
`busy*serviceRate*dt`, decrement if some channel is busy, and log an `end`
event only if the arrival phase logged nothing), then
`events = [newEvent, ...prev].slice(0, 5)` when an event was produced. -/
noncomputable def trunkingTick (channels : ℕ) (arrivalRate serviceRate randArrival randDeparture : ℝ)
    (st : TrunkState) : TrunkState :=
  let dt : ℝ := 0.1
  let arrivalProb := arrivalRate * dt
  let departureProb := (st.currentBusy : ℝ) * serviceRate * dt
  let busy1 := if randArrival < arrivalProb then
      (if st.currentBusy < channels then st.currentBusy + 1 else st.currentBusy)
    else st.currentBusy
  let totalCalls1 := if randArrival < arrivalProb then st.totalCalls + 1 else st.totalCalls
  let dropped1 := if randArrival < arrivalProb ∧ ¬ st.currentBusy < channels then
      st.droppedCalls + 1
    else st.droppedCalls
  let event1 : Option TrunkEventType := if randArrival < arrivalProb then
      (if st.currentBusy < channels then some .success else some .drop)
    else none
  let busy2 := if randDeparture < departureProb ∧ 0 < busy1 then busy1 - 1 else busy1
  let event2 : Option TrunkEventType :=
    if randDeparture < departureProb ∧ 0 < busy1 ∧ event1 = none then some .ended else event1
  { currentBusy := busy2,
    totalCalls := totalCalls1,
    droppedCalls := dropped1,
    events := match event2 with
      | some e => (e :: st.events).take 5
      | none => st.events }

/-- **C9**: per occupancy tick, at most one event joins the log (the log is
either untouched or equal to one new event consed on and clipped to length 5);
whenever the arrival branch fires, the logged event is the arrival's
`success`/`drop` event — so a simultaneous departure's `end` event is
suppressed; and if the log held at most 5 entries before the tick it still
does afterwards. -/
theorem trunkingTick_eventLog (channels : ℕ) (arrivalRate serviceRate rA rD : ℝ)
    (st : TrunkState) (hlen : st.events.length ≤ 5) :
    ((trunkingTick channels arrivalRate serviceRate rA rD st).events = st.events ∨
      ∃ e, (trunkingTick channels arrivalRate serviceRate rA rD st).events
        = (e :: st.events).take 5) ∧
    (rA < arrivalRate * 0.1 →
      (trunkingTick channels arrivalRate serviceRate rA rD st).events
        = ((if st.currentBusy < channels then TrunkEventType.success else TrunkEventType.drop)
            :: st.events).take 5) ∧
    (trunkingTick channels arrivalRate serviceRate rA rD st).events.length ≤ 5 := by
  refine ⟨?_, ?_, ?_⟩
  · by_cases hA : rA < arrivalRate * 0.1
    · by_cases hB : st.currentBusy < channels
      · exact Or.inr ⟨.success, by simp [trunkingTick, hA, hB]⟩
      · exact Or.inr ⟨.drop, by simp [trunkingTick, hA, hB]⟩
    · by_cases hD : rD < (st.currentBusy : ℝ) * serviceRate * 0.1 ∧ 0 < st.currentBusy
      · exact Or.inr ⟨.ended, by simp [trunkingTick, hA, hD.1, hD.2]⟩
      · exact Or.inl (by simp [trunkingTick, hA, hD])
  · intro hA
    by_cases hB : st.currentBusy < channels
    · simp [trunkingTick, hA, hB]
    · simp [trunkingTick, hA, hB]
  · by_cases hA : rA < arrivalRate * 0.1
    · by_cases hB : st.currentBusy < channels
      · simp only [trunkingTick, hA, hB, if_true, reduceIte]
        simp
      · simp only [trunkingTick, hA, hB, if_true, reduceIte]
        simp
    · by_cases hD : rD < (st.currentBusy : ℝ) * serviceRate * 0.1 ∧ 0 < st.currentBusy
      · simp only [trunkingTick, hA, hD.1, hD.2, reduceIte]
        simp
      · simpa [trunkingTick, hA, hD] using hlen

theorem trunkingTick_eventLog_witness :
    ((⟨0, 0, 0, []⟩ : TrunkState).events.length ≤ 5) ∧
    (((trunkingTick 10 5 1 0.3 0.9 ⟨0, 0, 0, []⟩).events = (⟨0, 0, 0, []⟩ : TrunkState).events ∨
      ∃ e, (trunkingTick 10 5 1 0.3 0.9 ⟨0, 0, 0, []⟩).events
        = (e :: (⟨0, 0, 0, []⟩ : TrunkState).events).take 5) ∧
    ((0.3:ℝ) < 5 * 0.1 →
      (trunkingTick 10 5 1 0.3 0.9 ⟨0, 0, 0, []⟩).events
        = ((if (⟨0, 0, 0, []⟩ : TrunkState).currentBusy < 10 then TrunkEventType.success
            else TrunkEventType.drop) :: (⟨0, 0, 0, []⟩ : TrunkState).events).take 5) ∧
    (trunkingTick 10 5 1 0.3 0.9 ⟨0, 0, 0, []⟩).events.length ≤ 5) :=
  ⟨by simp, trunkingTick_eventLog 10 5 1 0.3 0.9 ⟨0, 0, 0, []⟩ (by simp)⟩

/-! ## Doppler kinematics model (`DopplerSimulator.calculatePhysics`) -/

namespace Doppler

/-- Speed of light, `3e8` m/s. -/
noncomputable def C : ℝ := 3e8

noncomputable def CANVAS_WIDTH : ℝ := 800

noncomputable def ROAD_Y : ℝ := 320

noncomputable def TOWER_X : ℝ := CANVAS_WIDTH / 2

noncomputable def TOWER_Y : ℝ := 60

/-- The record returned by `calculatePhysics`. -/
structure Phys where
  v_ms : ℝ
  lambda : ℝ
  thetaDeg : ℝ
  deltaF : ℝ
  distance : ℝ
  cosTheta : ℝ

/-- `calculatePhysics(carX, vKmH, fGHz)`: car-to-tower geometry, angle and
Doppler shift `deltaF = (v_ms / lambda) * cosTheta`. -/
noncomputable def calculatePhysics (carX vKmH fGHz : ℝ) : Phys :=
  let v_ms := vKmH * (5 / 18)
  let f_Hz := fGHz * 1e9
  let lambda := C / f_Hz
  let dx := TOWER_X - carX
  let dy := TOWER_Y - ROAD_Y
  let d := Real.sqrt (dx * dx + dy * dy)
  let cosTheta := dx / d
  let thetaRad := Real.arccos cosTheta
  let thetaDeg := thetaRad * (180 / Real.pi)
  let deltaF := (v_ms / lambda) * cosTheta
  ⟨v_ms, lambda, thetaDeg, deltaF, d, cosTheta⟩

theorem distance_eq (carX vKmH fGHz : ℝ) :
    (calculatePhysics carX vKmH fGHz).distance
      = Real.sqrt ((TOWER_X - carX) * (TOWER_X - carX) + 67600) := by
  unfold calculatePhysics TOWER_Y ROAD_Y
  norm_num

theorem distance_ge (carX vKmH fGHz : ℝ) :
    260 ≤ (calculatePhysics carX vKmH fGHz).distance := by
  rw [distance_eq]
  rw [show (67600:ℝ) = 260 * 260 by norm_num]
  rw [Real.le_sqrt' (by norm_num)]
  nlinarith [sq_nonneg (TOWER_X - carX)]

end Doppler

namespace Doppler

/-- **C10 (implicit)**: the car-to-tower distance is always at least the fixed
vertical offset `|TOWER_Y - ROAD_Y| = 260 > 0`, so the division
`cosTheta = dx/d` is well-defined (`d ≠ 0`, the unguarded zero-distance case is
unreachable), `|cosTheta| ≤ 1`, and `acos` yields `thetaDeg ∈ [0, 180]`. -/
theorem calculatePhysics_geometry_safe (carX vKmH fGHz : ℝ) :
    |TOWER_Y - ROAD_Y| = 260 ∧
    260 ≤ (calculatePhysics carX vKmH fGHz).distance ∧
    (calculatePhysics carX vKmH fGHz).distance ≠ 0 ∧
    |(calculatePhysics carX vKmH fGHz).cosTheta| ≤ 1 ∧
    0 ≤ (calculatePhysics carX vKmH fGHz).thetaDeg ∧
    (calculatePhysics carX vKmH fGHz).thetaDeg ≤ 180 := by
  have habs : |TOWER_Y - ROAD_Y| = 260 := by
    unfold TOWER_Y ROAD_Y
    norm_num
  have hge := distance_ge carX vKmH fGHz
  have hpos : (0:ℝ) < (calculatePhysics carX vKmH fGHz).distance := lt_of_lt_of_le (by norm_num) hge
  have hcos : (calculatePhysics carX vKmH fGHz).cosTheta
      = (TOWER_X - carX) / (calculatePhysics carX vKmH fGHz).distance := rfl
  have hcos_le : |(calculatePhysics carX vKmH fGHz).cosTheta| ≤ 1 := by
    rw [hcos, abs_div, abs_of_pos hpos, div_le_one hpos]
    have hd := distance_eq carX vKmH fGHz
    rw [hd]
    have h1 : |TOWER_X - carX| = Real.sqrt ((TOWER_X - carX) * (TOWER_X - carX)) := by
      rw [← Real.sqrt_mul_self (abs_nonneg _), abs_mul_abs_self]
    rw [h1]
    exact Real.sqrt_le_sqrt (by nlinarith)
  have htheta : (calculatePhysics carX vKmH fGHz).thetaDeg
      = Real.arccos ((calculatePhysics carX vKmH fGHz).cosTheta) * (180 / Real.pi) := rfl
  refine ⟨habs, hge, ne_of_gt hpos, hcos_le, ?_, ?_⟩
  · rw [htheta]
    exact mul_nonneg (Real.arccos_nonneg _) (by positivity)
  · rw [htheta]
    have harc := Real.arccos_le_pi ((calculatePhysics carX vKmH fGHz).cosTheta)
    have hpi := Real.pi_pos
    calc Real.arccos ((calculatePhysics carX vKmH fGHz).cosTheta) * (180 / Real.pi)
        ≤ Real.pi * (180 / Real.pi) := by
          apply mul_le_mul_of_nonneg_right harc
          positivity
      _ = 180 := by field_simp

/-- **C8**: Doppler sign convention.  With `velocityKmH > 0` and
`frequencyGHz > 0`: if the horizontal offset `dx = TOWER_X - carX` is positive
(approaching) then `deltaF > 0`; if `dx < 0` (receding) then `deltaF < 0`; and
if `dx = 0` (perpendicular at the closest point) then `deltaF = 0`. -/
theorem calculatePhysics_sign_convention (carX vKmH fGHz : ℝ)
    (hv : 0 < vKmH) (hf : 0 < fGHz) :
    (0 < TOWER_X - carX → 0 < (calculatePhysics carX vKmH fGHz).deltaF) ∧
    (TOWER_X - carX < 0 → (calculatePhysics carX vKmH fGHz).deltaF < 0) ∧
    (TOWER_X - carX = 0 → (calculatePhysics carX vKmH fGHz).deltaF = 0) := by
  have hd : (0:ℝ) < (calculatePhysics carX vKmH fGHz).distance :=
    lt_of_lt_of_le (by norm_num) (distance_ge carX vKmH fGHz)
  have hdf : (calculatePhysics carX vKmH fGHz).deltaF
      = (vKmH * (5 / 18) / (C / (fGHz * 1e9)))
        * ((TOWER_X - carX) / (calculatePhysics carX vKmH fGHz).distance) := rfl
  have hscale : 0 < vKmH * (5 / 18) / (C / (fGHz * 1e9)) := by
    apply div_pos (by nlinarith)
    apply div_pos
    · unfold C; norm_num
    · nlinarith
  refine ⟨?_, ?_, ?_⟩
  · intro hdx
    rw [hdf]
    exact mul_pos hscale (div_pos hdx hd)
  · intro hdx
    rw [hdf]
    exact mul_neg_of_pos_of_neg hscale (div_neg_of_neg_of_pos hdx hd)
  · intro hdx
    rw [hdf, hdx]
    simp

theorem calculatePhysics_sign_convention_witness :
    (0 < (calculatePhysics 300 100 2.5).deltaF) ∧
    ((calculatePhysics 500 100 2.5).deltaF < 0) ∧
    ((calculatePhysics 400 100 2.5).deltaF = 0) := by
  have hx3 : (0:ℝ) < TOWER_X - 300 := by unfold TOWER_X CANVAS_WIDTH; norm_num
  have hx5 : TOWER_X - (500:ℝ) < 0 := by unfold TOWER_X CANVAS_WIDTH; norm_num
  have hx4 : TOWER_X - (400:ℝ) = 0 := by unfold TOWER_X CANVAS_WIDTH; norm_num
  exact ⟨(calculatePhysics_sign_convention 300 100 2.5 (by norm_num) (by norm_num)).1 hx3,
    (calculatePhysics_sign_convention 500 100 2.5 (by norm_num) (by norm_num)).2.1 hx5,
    (calculatePhysics_sign_convention 400 100 2.5 (by norm_num) (by norm_num)).2.2 hx4⟩

end Doppler

/-! ## Multipath geometric channel model (`MultipathSimulator.multipathData`) -/

namespace Multipath

/-- Transmitter position constant `TX_POS = {x: 100, y: 100}`. -/
noncomputable def TX_POS : ℝ × ℝ := (100, 100)

/-- Scaled speed of light, `C = 300` units/tick. -/
noncomputable def C : ℝ := 300

/-- Path-loss exponent `GAMMA = 2.0`. -/
noncomputable def GAMMA : ℝ := 2.0

/-- `REFLECTION_COEFF = 0.5`. -/
noncomputable def REFLECTION_COEFF : ℝ := 0.5

/-- `Math.sqrt(Math.pow(p.x - q.x, 2) + Math.pow(p.y - q.y, 2))`. -/
noncomputable def distP (p q : ℝ × ℝ) : ℝ := Real.sqrt ((p.1 - q.1) ^ 2 + (p.2 - q.2) ^ 2)

/-- One entry of the power-delay profile (the rendering `color` field is not
modelled). -/
structure MPPath where
  id : String
  delay : ℝ
  amplitude : ℝ

/-- The comparator `(a, b) => a.delay - b.delay` orders paths by delay. -/
def delayLE (p q : MPPath) : Prop := p.delay ≤ q.delay

instance : IsTotal MPPath delayLE := ⟨fun p q => le_total p.delay q.delay⟩

instance : IsTrans MPPath delayLE := ⟨fun _ _ _ h1 h2 => le_trans h1 h2⟩

noncomputable instance : DecidableRel delayLE := fun p q => Real.decidableLE p.delay q.delay

/-- `multipathData`: the LOS path `{delay: d0/C, amplitude: 1000/d0^GAMMA}`
followed by one NLOS path per building
`{delay: (|b-tx|+|rx-b|)/C, amplitude: 1000*REFLECTION_COEFF/di^GAMMA}`,
sorted ascending by delay.  The transmitter position is a parameter here; the
component instantiates it with the constant `TX_POS`. -/
noncomputable def multipathData (tx rx : ℝ × ℝ) (buildings : List (ℝ × ℝ)) : List MPPath :=
  let d0 := distP rx tx
  let paths : List MPPath :=
    ⟨"LOS", d0 / C, 1000 / d0 ^ GAMMA⟩ ::
      buildings.mapIdx (fun idx b =>
        let di := distP b tx + distP rx b
        ⟨"NLOS " ++ toString (idx + 1), di / C, 1000 * REFLECTION_COEFF / di ^ GAMMA⟩)
  List.insertionSort delayLE paths

theorem distP_eq_cabs (u v : ℝ × ℝ) : distP u v = Complex.abs ⟨u.1 - v.1, u.2 - v.2⟩ := by
  rw [Complex.abs_apply, Complex.normSq_mk]
  unfold distP
  ring_nf

theorem distP_triangle (p q r : ℝ × ℝ) : distP p q ≤ distP p r + distP r q := by
  rw [distP_eq_cabs, distP_eq_cabs, distP_eq_cabs]
  have heq : (⟨p.1 - q.1, p.2 - q.2⟩ : ℂ) = ⟨p.1 - r.1, p.2 - r.2⟩ + ⟨r.1 - q.1, r.2 - q.2⟩ := by
    apply Complex.ext <;> simp
  rw [heq]
  exact Complex.abs.add_le _ _

/-- **C7**: for all transmitter/receiver/reflector positions with positive
pairwise distances, `multipathData` is sorted ascending by delay; the LOS delay
`d0/C` is a lower bound for every listed delay (each NLOS two-segment length is
at least the LOS distance, by the triangle inequality); and the LOS amplitude
`1000/d0^GAMMA` strictly exceeds every NLOS amplitude
`1000*REFLECTION_COEFF/di^GAMMA`, since `REFLECTION_COEFF = 0.5 < 1` and
`di ≥ d0`. -/
theorem multipathData_sorted_LOS_dominant (tx rx : ℝ × ℝ) (buildings : List (ℝ × ℝ))
    (h0 : 0 < distP rx tx)
    (hb : ∀ b ∈ buildings, 0 < distP b tx ∧ 0 < distP rx b) :
    List.Sorted delayLE (multipathData tx rx buildings) ∧
    (∀ p ∈ multipathData tx rx buildings, distP rx tx / C ≤ p.delay) ∧
    (∀ b ∈ buildings,
      1000 * REFLECTION_COEFF / (distP b tx + distP rx b) ^ GAMMA
        < 1000 / distP rx tx ^ GAMMA) := by
  have hC : (0:ℝ) < C := by unfold C; norm_num
  have hdom : ∀ b ∈ buildings,
      1000 * REFLECTION_COEFF / (distP b tx + distP rx b) ^ GAMMA
        < 1000 / distP rx tx ^ GAMMA := by
    intro b hbmem
    obtain ⟨hbt, hrb⟩ := hb b hbmem
    have hdi : 0 < distP b tx + distP rx b := by linarith
    have htri : distP rx tx ≤ distP b tx + distP rx b := by
      have := distP_triangle rx tx b
      linarith [distP_triangle rx tx b]
    have hrpow : distP rx tx ^ GAMMA ≤ (distP b tx + distP rx b) ^ GAMMA :=
      Real.rpow_le_rpow (le_of_lt h0) htri (by unfold GAMMA; norm_num)
    have hpow0 : (0:ℝ) < distP rx tx ^ GAMMA := Real.rpow_pos_of_pos h0 _
    have hpowi : (0:ℝ) < (distP b tx + distP rx b) ^ GAMMA := Real.rpow_pos_of_pos hdi _
    have h1 : 1000 * REFLECTION_COEFF / (distP b tx + distP rx b) ^ GAMMA
        < 1000 / (distP b tx + distP rx b) ^ GAMMA := by
      apply div_lt_div_of_pos_right ?_ hpowi
      unfold REFLECTION_COEFF
      norm_num
    have h2 : 1000 / (distP b tx + distP rx b) ^ GAMMA ≤ 1000 / distP rx tx ^ GAMMA :=
      div_le_div_of_nonneg_left (by norm_num) hpow0 hrpow
    linarith
  refine ⟨List.sorted_insertionSort delayLE _, ?_, hdom⟩
  intro p hp
  have hmem : p ∈ (⟨"LOS", distP rx tx / C, 1000 / distP rx tx ^ GAMMA⟩ ::
      buildings.mapIdx (fun idx b =>
        ⟨"NLOS " ++ toString (idx + 1), (distP b tx + distP rx b) / C,
          1000 * REFLECTION_COEFF / (distP b tx + distP rx b) ^ GAMMA⟩) : List MPPath) :=
    (List.perm_insertionSort delayLE _).mem_iff.mp hp
  rcases List.mem_cons.mp hmem with hlos | hnlos
  · rw [hlos]
  · rw [List.mapIdx_eq_enum_map] at hnlos
    obtain ⟨⟨i, b⟩, hmemb, heq⟩ := List.mem_map.mp hnlos
    obtain ⟨_, hbi⟩ := List.mem_enum hmemb
    have hbmem : b ∈ buildings := by
      rw [hbi]
      exact List.getElem_mem _
    rw [← heq]
    simp only [Function.uncurry]
    have htri : distP rx tx ≤ distP b tx + distP rx b := by
      linarith [distP_triangle rx tx b]
    exact (div_le_div_iff_of_pos_right hC).mpr htri

theorem multipathData_sorted_LOS_dominant_witness :
    (0 < distP (100, 350) TX_POS) ∧
    (∀ b ∈ [((300:ℝ), (200:ℝ)), (500, 150), (650, 250)],
        0 < distP b TX_POS ∧ 0 < distP (100, 350) b) ∧
    (List.Sorted delayLE (multipathData TX_POS (100, 350) [(300, 200), (500, 150), (650, 250)]) ∧
     (∀ p ∈ multipathData TX_POS (100, 350) [(300, 200), (500, 150), (650, 250)],
        distP (100, 350) TX_POS / C ≤ p.delay) ∧
     (∀ b ∈ [((300:ℝ), (200:ℝ)), (500, 150), (650, 250)],
        1000 * REFLECTION_COEFF / (distP b TX_POS + distP (100, 350) b) ^ GAMMA
          < 1000 / distP (100, 350) TX_POS ^ GAMMA)) := by
  have h0 : 0 < distP (100, 350) TX_POS := by
    unfold distP TX_POS
    apply Real.sqrt_pos.mpr
    norm_num
  have hb : ∀ b ∈ [((300:ℝ), (200:ℝ)), (500, 150), (650, 250)],
      0 < distP b TX_POS ∧ 0 < distP (100, 350) b := by
    intro b hbmem
    fin_cases hbmem <;>
      exact ⟨by apply Real.sqrt_pos.mpr; norm_num [TX_POS],
             by apply Real.sqrt_pos.mpr; norm_num [TX_POS]⟩
  exact ⟨h0, hb, multipathData_sorted_LOS_dominant TX_POS (100, 350)
    [(300, 200), (500, 150), (650, 250)] h0 hb⟩

end Multipath

/-! ## Signal-recovery DSP pipeline (`SignalRecoverySimulator`) -/

/-- Stage 1 `generateSignal`: each `'1'` becomes `+1`, every other character
`-1`; each value is replicated `samplesPerSymbol` times; `2*samplesPerSymbol`
zero samples are appended as a settling tail. -/
noncomputable def generateSignal (inputBits : List Char) (samplesPerSymbol : ℕ) : List ℝ :=
  (inputBits.flatMap fun b => List.replicate samplesPerSymbol (if b = '1' then (1:ℝ) else -1))
    ++ List.replicate (2 * samplesPerSymbol) 0

/-- `Math.max(...taps.map(t => t.delay))` (with `0` for no taps; the component
always has at least one tap). -/
def maxDelay (taps : List (ℕ × ℝ)) : ℕ := taps.foldr (fun t m => max t.1 m) 0

/-- Stage 2 `generateChannel`: impulse response of length `maxDelay+1`
accumulating `h[delay] += amp` over the taps (colliding delays sum). -/
noncomputable def generateChannel (taps : List (ℕ × ℝ)) : List ℝ :=
  List.ofFn fun i : Fin (maxDelay taps + 1) =>
    ((taps.filter fun t => t.1 = i.1).map Prod.snd).sum

/-- Stage 3 `convolveSignals` (noiseless part): full-support linear
convolution `y[i] = Σ_{j} x[i-j]·h[j]`, output length `x.length+h.length-1`,
with the source's explicit `0 ≤ i-j < x.length` guard. -/
noncomputable def convolveSignals (x h : List ℝ) : List ℝ :=
  List.ofFn fun i : Fin (x.length + h.length - 1) =>
    ∑ j ∈ Finset.range h.length,
      if j ≤ i.1 ∧ i.1 - j < x.length then x.getD (i.1 - j) 0 * h.getD j 0 else 0

/-- The Box–Muller draw `z = sqrt(-2·ln u1) · cos(2π·u2)` (total over ℝ:
`Real.sqrt`/`Real.log` default junk values only matter multiplied by the
variance). -/
noncomputable def boxMullerZ (u1 u2 : ℝ) : ℝ :=
  Real.sqrt (-2 * Real.log u1) * Real.cos (2 * Real.pi * u2)

/-- AWGN injection `y.map(val => val + z*noiseVariance)`, with the per-sample
uniform draws `us` passed explicitly. -/
noncomputable def addNoise (y : List ℝ) (noiseVariance : ℝ) (us : ℕ → ℝ × ℝ) : List ℝ :=
  List.ofFn fun i : Fin y.length =>
    y.getD i 0 + boxMullerZ (us i).1 (us i).2 * noiseVariance

/-- The DFT computed by `math.fft`: `V[k] = Σ_j v[j]·exp(-2πi·j·k/N)`. -/
noncomputable def fft (v : List ℂ) : List ℂ :=
  List.ofFn fun k : Fin v.length =>
    ∑ j ∈ Finset.range v.length,
      v.getD j 0 * Complex.exp (-2 * Real.pi * Complex.I * j * k / v.length)

/-- The inverse DFT computed by `math.ifft`:
`v[n] = (Σ_k V[k]·exp(2πi·k·n/N)) / N`. -/
noncomputable def ifft (v : List ℂ) : List ℂ :=
  List.ofFn fun n : Fin v.length =>
    (∑ k ∈ Finset.range v.length,
      v.getD k 0 * Complex.exp (2 * Real.pi * Complex.I * k * n / v.length)) / v.length

/-- `epsilon = 1e-6`, the divide-by-zero guard of `performFFT`. -/
noncomputable def epsilon : ℝ := 1e-6

/-- The equalizer denominator: `H` itself unless `|H| < epsilon`, in which
case `epsilon` is added to the real part
(`math.complex(H.re + epsilon, H.im)`). -/
noncomputable def eqDenom (H : ℂ) : ℂ :=
  if Complex.abs H < epsilon then H + (epsilon : ℝ) else H

/-- One equalizer bin, `E = 1 / H_denom`. -/
noncomputable def equalizerE (H : ℂ) : ℂ := 1 / eqDenom H

/-- The zero-padding of the channel response to the signal length `N` used by
`performFFT` (`h.length ≤ N` in the pipeline). -/
noncomputable def padTo (v : List ℝ) (N : ℕ) : List ℝ :=
  List.ofFn fun i : Fin N => v.getD i 0

/-- Stage 4 `performFFT`: FFT of the received signal, FFT of the zero-padded
channel, and the guarded equalizer spectrum; returns `(Y, H, E)`. -/
noncomputable def performFFT (yNoisy h : List ℝ) : List ℂ × List ℂ × List ℂ :=
  let Y := fft (yNoisy.map (fun r : ℝ => (r : ℂ)))
  let Hc := fft ((padTo h yNoisy.length).map (fun r : ℝ => (r : ℂ)))
  (Y, Hc, Hc.map equalizerE)

/-- Stage 5 `performEqualization`: `X̂ = Y·E` pointwise, inverse FFT, real
part, then decode bit `i` from the sample at `floor(i*sps + sps/2)`
(thresholding at zero, and skipping indices that fall outside the recovered
signal). -/
noncomputable def performEqualization (Y E : List ℂ) (numBits samplesPerSymbol : ℕ) :
    List Char :=
  let x_recovered := (ifft (List.zipWith (· * ·) Y E)).map Complex.re
  (List.range numBits).filterMap fun i =>
    let idx := i * samplesPerSymbol + samplesPerSymbol / 2
    if idx < x_recovered.length then
      some (if 0 < x_recovered.getD idx 0 then '1' else '0')
    else none

/-- The five pipeline stages composed: Generate → Channel → Convolve(+noise) →
Transform → Equalize, producing `recoveredBits`. -/
noncomputable def pipeline (inputBits : List Char) (samplesPerSymbol : ℕ)
    (taps : List (ℕ × ℝ)) (noiseVariance : ℝ) (us : ℕ → ℝ × ℝ) : List Char :=
  let x := generateSignal inputBits samplesPerSymbol
  let h := generateChannel taps
  let y := convolveSignals x h
  let yNoisy := addNoise y noiseVariance us
  let fftRes := performFFT yNoisy h
  performEqualization fftRes.1 fftRes.2.2 inputBits.length samplesPerSymbol

/-- **C4**: for every complex frequency bin `H`, the equalizer denominator is
`H` with `epsilon` added to its real part when `|H| < epsilon` and `H` itself
otherwise; in both cases it is nonzero, and `E = 1/denominator` is its exact
multiplicative inverse — the division never divides by zero. -/
theorem equalizer_denominator_safe (H : ℂ) :
    eqDenom H ≠ 0 ∧
    eqDenom H = (if Complex.abs H < epsilon then H + (epsilon : ℝ) else H) ∧
    equalizerE H * eqDenom H = 1 := by
  have heps : (0:ℝ) < epsilon := by unfold epsilon; norm_num
  have hne : eqDenom H ≠ 0 := by
    unfold eqDenom
    split
    · rename_i habs
      intro h0
      have hH : H = -(epsilon : ℝ) := by
        have := eq_neg_of_add_eq_zero_left h0
        simpa using this
      rw [hH] at habs
      rw [map_neg_eq_map] at habs
      rw [Complex.abs_ofReal, abs_of_pos heps] at habs
      exact lt_irrefl epsilon habs
    · rename_i habs
      intro h0
      rw [h0] at habs
      simp at habs
      exact absurd habs (not_le.mpr heps)
  exact ⟨hne, rfl, one_div_mul_cancel hne⟩

/-! ### Roots of unity and DFT inversion -/

/-- `zrot N m = exp(2πi·m/N)`, the `m`-th power of the primitive `N`-th root
of unity used by the DFT kernels. -/
noncomputable def zrot (N : ℕ) (m : ℤ) : ℂ :=
  Complex.exp (2 * Real.pi * Complex.I * m / N)

theorem zrot_zero (N : ℕ) : zrot N 0 = 1 := by
  unfold zrot
  norm_num

theorem zrot_add (N : ℕ) (a b : ℤ) : zrot N (a + b) = zrot N a * zrot N b := by
  unfold zrot
  rw [← Complex.exp_add]
  congr 1
  push_cast
  ring

theorem zrot_natMul (N : ℕ) (k : ℕ) (d : ℤ) : zrot N (k * d) = zrot N d ^ k := by
  unfold zrot
  rw [← Complex.exp_nat_mul]
  congr 1
  push_cast
  ring

theorem zrot_pow_self (N : ℕ) (hN : 0 < N) (m : ℤ) : zrot N m ^ N = 1 := by
  rw [← zrot_natMul]
  unfold zrot
  have hNe : (N:ℂ) ≠ 0 := Nat.cast_ne_zero.mpr (ne_of_gt hN)
  have harg : 2 * (Real.pi:ℂ) * Complex.I * ((N:ℕ) * m : ℤ) / N = m * (2 * Real.pi * Complex.I) := by
    push_cast
    field_simp
    ring
  rw [harg]
  exact Complex.exp_int_mul_two_pi_mul_I m

theorem zrot_eq_one_iff (N : ℕ) (hN : 0 < N) (m : ℤ) :
    zrot N m = 1 ↔ (N:ℤ) ∣ m := by
  have hNe : (N:ℂ) ≠ 0 := Nat.cast_ne_zero.mpr (ne_of_gt hN)
  have hc : (2 * (Real.pi:ℂ) * Complex.I) ≠ 0 := by
    apply mul_ne_zero
    apply mul_ne_zero
    · norm_num
    · exact Complex.ofReal_ne_zero.mpr Real.pi_ne_zero
    · exact Complex.I_ne_zero
  unfold zrot
  rw [Complex.exp_eq_one_iff]
  constructor
  · rintro ⟨n, hn⟩
    refine ⟨n, ?_⟩
    have h1 : (2 * (Real.pi:ℂ) * Complex.I) * ((m:ℂ) / N) = (2 * (Real.pi:ℂ) * Complex.I) * n := by
      rw [← mul_div_assoc, hn]
      ring
    have h2 : (m:ℂ) / N = n := mul_left_cancel₀ hc h1
    rw [div_eq_iff hNe] at h2
    have h3 : m = n * (N:ℤ) := by exact_mod_cast h2
    exact h3.trans (mul_comm n (N:ℤ))
  · rintro ⟨c, rfl⟩
    refine ⟨c, ?_⟩
    push_cast
    field_simp
    ring

/-- Geometric-sum orthogonality for the DFT: summing the `k`-th powers of
`zrot N m` over one period gives `N` when `N ∣ m` and `0` otherwise. -/
theorem sum_zrot_pow (N : ℕ) (hN : 0 < N) (m : ℤ) :
    ∑ k ∈ Finset.range N, zrot N m ^ k = if (N:ℤ) ∣ m then (N:ℂ) else 0 := by
  by_cases hone : zrot N m = 1
  · rw [if_pos ((zrot_eq_one_iff N hN m).mp hone), hone]
    simp
  · rw [if_neg (fun hdvd => hone ((zrot_eq_one_iff N hN m).mpr hdvd))]
    rw [geom_sum_eq hone, zrot_pow_self N hN, sub_self, zero_div]

/-- The forward kernel of `fft` in `zrot` form. -/
theorem fft_kernel_eq_zrot (N j k : ℕ) :
    Complex.exp (-2 * Real.pi * Complex.I * j * k / N) = zrot N (-(j * k : ℤ)) := by
  unfold zrot
  congr 1
  push_cast
  ring

/-- The inverse kernel of `ifft` in `zrot` form. -/
theorem ifft_kernel_eq_zrot (N k n : ℕ) :
    Complex.exp (2 * Real.pi * Complex.I * k * n / N) = zrot N (k * n : ℤ) := by
  unfold zrot
  congr 1
  push_cast
  ring

theorem fft_length (v : List ℂ) : (fft v).length = v.length := by
  unfold fft
  simp

theorem ifft_length (v : List ℂ) : (ifft v).length = v.length := by
  unfold ifft
  simp

theorem fft_getD (v : List ℂ) (k : ℕ) (hk : k < v.length) :
    (fft v).getD k 0 = ∑ j ∈ Finset.range v.length,
      v.getD j 0 * Complex.exp (-2 * Real.pi * Complex.I * j * k / v.length) := by
  unfold fft
  rw [List.getD_eq_getElem _ _ (by simpa using hk)]
  simp

theorem ifft_getD (v : List ℂ) (n : ℕ) (hn : n < v.length) :
    (ifft v).getD n 0 = (∑ k ∈ Finset.range v.length,
      v.getD k 0 * Complex.exp (2 * Real.pi * Complex.I * k * n / v.length)) / v.length := by
  unfold ifft
  rw [List.getD_eq_getElem _ _ (by simpa using hn)]
  simp

/-- DFT inversion: `ifft (fft v) = v` — the two `math.js` transforms with the
`1/N` normalisation on the inverse are mutually inverse. -/
theorem ifft_fft (v : List ℂ) : ifft (fft v) = v := by
  rcases Nat.eq_zero_or_pos v.length with h0 | hN
  · have : v = [] := List.length_eq_zero.mp h0
    simp [this, ifft, fft]
  apply List.ext_getElem
  · simp [ifft_length, fft_length]
  intro n hn hn'
  have hnv : n < v.length := hn'
  have hlen : (ifft (fft v)).length = v.length := by rw [ifft_length, fft_length]
  have hNe : ((v.length : ℂ)) ≠ 0 := Nat.cast_ne_zero.mpr (ne_of_gt hN)
  rw [← List.getD_eq_getElem _ 0 hn, ← List.getD_eq_getElem _ 0 hn']
  have hfl : (fft v).length = v.length := fft_length v
  rw [show ifft (fft v) = ifft (fft v) from rfl]
  rw [ifft_getD (fft v) n (by rw [hfl]; exact hnv)]
  rw [hfl]
  have hterm : ∀ k ∈ Finset.range v.length,
      (fft v).getD k 0 * Complex.exp (2 * Real.pi * Complex.I * k * n / v.length)
        = ∑ j ∈ Finset.range v.length, v.getD j 0 * zrot v.length (k * ((n:ℤ) - (j:ℤ))) := by
    intro k hk
    rw [fft_getD v k (Finset.mem_range.mp hk)]
    rw [Finset.sum_mul]
    apply Finset.sum_congr rfl
    intro j _
    rw [mul_assoc]
    congr 1
    rw [fft_kernel_eq_zrot, ifft_kernel_eq_zrot, ← zrot_add]
    congr 1
    ring
  rw [Finset.sum_congr rfl hterm]
  rw [Finset.sum_comm]
  have hinner : ∀ j ∈ Finset.range v.length,
      ∑ k ∈ Finset.range v.length, v.getD j 0 * zrot v.length (k * ((n:ℤ) - (j:ℤ)))
        = v.getD j 0 * (if ((v.length:ℤ)) ∣ ((n:ℤ) - (j:ℤ)) then (v.length:ℂ) else 0) := by
    intro j _
    rw [← Finset.mul_sum]
    congr 1
    calc ∑ k ∈ Finset.range v.length, zrot v.length (k * ((n:ℤ) - (j:ℤ)))
        = ∑ k ∈ Finset.range v.length, zrot v.length ((n:ℤ) - (j:ℤ)) ^ k := by
          apply Finset.sum_congr rfl
          intro k _
          exact zrot_natMul v.length k ((n:ℤ) - (j:ℤ))
      _ = if ((v.length:ℤ)) ∣ ((n:ℤ) - (j:ℤ)) then (v.length:ℂ) else 0 :=
          sum_zrot_pow v.length hN ((n:ℤ) - (j:ℤ))
  rw [Finset.sum_congr rfl hinner]
  have hdvd : ∀ j ∈ Finset.range v.length,
      (((v.length:ℤ)) ∣ ((n:ℤ) - (j:ℤ))) ↔ j = n := by
    intro j hj
    have hjv := Finset.mem_range.mp hj
    constructor
    · intro hd
      by_contra hne
      have hnz : (n:ℤ) - (j:ℤ) ≠ 0 := by
        intro h0
        apply hne
        omega
      have habs : (v.length:ℤ) ≤ |(n:ℤ) - (j:ℤ)| :=
        Int.le_of_dvd (abs_pos.mpr hnz) ((dvd_abs _ _).mpr hd)
      have : |(n:ℤ) - (j:ℤ)| < (v.length:ℤ) := by
        rw [abs_lt]
        omega
      omega
    · intro h
      rw [h]
      simp
  have hsum : ∑ j ∈ Finset.range v.length,
      v.getD j 0 * (if ((v.length:ℤ)) ∣ ((n:ℤ) - (j:ℤ)) then (v.length:ℂ) else 0)
        = v.getD n 0 * v.length := by
    rw [Finset.sum_eq_single n]
    · rw [if_pos (by simp)]
    · intro j hj hjn
      rw [if_neg]
      · ring
      · rw [hdvd j hj]
        exact hjn
    · intro habs
      exact absurd (Finset.mem_range.mpr hnv) habs
  rw [hsum]
  field_simp

/-! ### The convolution theorem for the zero-padded pipeline -/

theorem padTo_length (v : List ℝ) (N : ℕ) : (padTo v N).length = N := by
  unfold padTo
  simp

theorem padTo_getD (v : List ℝ) (N i : ℕ) (hi : i < N) :
    (padTo v N).getD i 0 = v.getD i 0 := by
  unfold padTo
  rw [List.getD_eq_getElem _ _ (by simpa using hi)]
  simp

theorem getD_map_ofReal (v : List ℝ) (i : ℕ) :
    (v.map (fun r : ℝ => (r : ℂ))).getD i 0 = ((v.getD i 0 : ℝ) : ℂ) := by
  rcases lt_or_ge i v.length with h | h
  · rw [List.getD_eq_getElem _ _ (by simpa using h), List.getD_eq_getElem _ _ h]
    simp
  · rw [List.getD_eq_default _ _ (by simpa using h), List.getD_eq_default _ _ h]
    simp

theorem convolveSignals_length (x h : List ℝ) :
    (convolveSignals x h).length = x.length + h.length - 1 := by
  unfold convolveSignals
  simp

theorem convolveSignals_getD (x h : List ℝ) (i : ℕ) (hi : i < x.length + h.length - 1) :
    (convolveSignals x h).getD i 0
      = ∑ j ∈ Finset.range h.length,
          if j ≤ i ∧ i - j < x.length then x.getD (i - j) 0 * h.getD j 0 else 0 := by
  unfold convolveSignals
  rw [List.getD_eq_getElem _ _ (by simpa using hi)]
  simp

theorem sum_shift_reindex (N lx j : ℕ) (hj : j + lx ≤ N) (f : ℕ → ℂ) :
    ∑ n ∈ Finset.range N, (if j ≤ n ∧ n - j < lx then f (n - j) else 0)
      = ∑ m ∈ Finset.range lx, f m := by
  rw [← Finset.sum_filter]
  have hset : (Finset.range N).filter (fun n => j ≤ n ∧ n - j < lx)
      = (Finset.range lx).map ⟨(· + j), add_left_injective j⟩ := by
    ext n
    simp only [Finset.mem_filter, Finset.mem_range, Finset.mem_map,
      Function.Embedding.coeFn_mk]
    constructor
    · rintro ⟨hnN, hjn, hnjlx⟩
      exact ⟨n - j, hnjlx, by omega⟩
    · rintro ⟨m, hm, rfl⟩
      omega
  rw [hset, Finset.sum_map]
  simp

/-- The spectrum of a zero-padded list is the restricted sum over its actual
support. -/
theorem fft_pad_getD (v : List ℝ) (N k : ℕ) (hvN : v.length ≤ N) (hk : k < N) :
    (fft ((padTo v N).map (fun r : ℝ => (r : ℂ)))).getD k 0
      = ∑ m ∈ Finset.range v.length, ((v.getD m 0 : ℝ) : ℂ) * zrot N (-(m * k : ℤ)) := by
  have hlen : ((padTo v N).map (fun r : ℝ => (r : ℂ))).length = N := by
    rw [List.length_map, padTo_length]
  rw [fft_getD _ k (by rw [hlen]; exact hk), hlen]
  rw [Finset.sum_congr rfl (fun j hj => by
    rw [getD_map_ofReal, fft_kernel_eq_zrot, padTo_getD v N j (Finset.mem_range.mp hj)])]
  symm
  apply Finset.sum_subset
  · intro m hm
    exact Finset.mem_range.mpr (lt_of_lt_of_le (Finset.mem_range.mp hm) hvN)
  · intro m _ hm
    have hlem : v.length ≤ m := le_of_not_lt (fun hcon => hm (Finset.mem_range.mpr hcon))
    rw [List.getD_eq_default _ _ hlem]
    simp

/-- **Convolution theorem**: for `N = x.length + h.length - 1`, the DFT of the
full linear convolution equals the pointwise product of the DFTs of the
zero-padded inputs, bin by bin. -/
theorem fft_convolve_getD (x h : List ℝ) (hx : 0 < x.length) (hh : 0 < h.length)
    (k : ℕ) (hk : k < x.length + h.length - 1) :
    (fft ((convolveSignals x h).map (fun r : ℝ => (r : ℂ)))).getD k 0
      = (fft ((padTo x (x.length + h.length - 1)).map (fun r : ℝ => (r : ℂ)))).getD k 0
        * (fft ((padTo h (x.length + h.length - 1)).map (fun r : ℝ => (r : ℂ)))).getD k 0 := by
  set N := x.length + h.length - 1 with hN_def
  have hN : 0 < N := by omega
  have hlenc : ((convolveSignals x h).map (fun r : ℝ => (r : ℂ))).length = N := by
    rw [List.length_map, convolveSignals_length]
  rw [fft_getD _ k (by rw [hlenc]; exact hk), hlenc]
  rw [fft_pad_getD x N k (by omega) hk, fft_pad_getD h N k (by omega) hk]
  have hstep1 : ∀ n ∈ Finset.range N,
      ((convolveSignals x h).map (fun r : ℝ => (r : ℂ))).getD n 0
          * Complex.exp (-2 * Real.pi * Complex.I * n * k / N)
        = ∑ j ∈ Finset.range h.length,
            (if j ≤ n ∧ n - j < x.length then
              ((x.getD (n - j) 0 : ℝ) : ℂ) * ((h.getD j 0 : ℝ) : ℂ) * zrot N (-(n * k : ℤ))
            else 0) := by
    intro n hn
    rw [getD_map_ofReal, convolveSignals_getD x h n (Finset.mem_range.mp hn)]
    rw [fft_kernel_eq_zrot]
    push_cast
    rw [Finset.sum_mul]
    apply Finset.sum_congr rfl
    intro j _
    split_ifs with hc
    · push_cast
      ring
    · simp
  rw [Finset.sum_congr rfl hstep1]
  rw [Finset.sum_comm]
  have hstep2 : ∀ j ∈ Finset.range h.length,
      ∑ n ∈ Finset.range N,
          (if j ≤ n ∧ n - j < x.length then
            ((x.getD (n - j) 0 : ℝ) : ℂ) * ((h.getD j 0 : ℝ) : ℂ) * zrot N (-(n * k : ℤ))
          else 0)
        = ∑ m ∈ Finset.range x.length,
            ((x.getD m 0 : ℝ) : ℂ) * ((h.getD j 0 : ℝ) : ℂ) * zrot N (-((m + j) * k : ℤ)) := by
    intro j hj
    have hjh := Finset.mem_range.mp hj
    have hcongr : ∀ n ∈ Finset.range N,
        (if j ≤ n ∧ n - j < x.length then
          ((x.getD (n - j) 0 : ℝ) : ℂ) * ((h.getD j 0 : ℝ) : ℂ) * zrot N (-(n * k : ℤ))
        else 0)
          = (if j ≤ n ∧ n - j < x.length then
            ((x.getD (n - j) 0 : ℝ) : ℂ) * ((h.getD j 0 : ℝ) : ℂ)
              * zrot N (-(((n - j : ℕ) + j) * k : ℤ))
          else 0) := by
      intro n _
      split
      · rename_i hcond
        have harg : ((n - j : ℕ) : ℤ) + (j : ℤ) = (n : ℤ) := by omega
        rw [harg]
      · rfl
    rw [Finset.sum_congr rfl hcongr]
    exact sum_shift_reindex N x.length j (by omega)
      (fun m => ((x.getD m 0 : ℝ) : ℂ) * ((h.getD j 0 : ℝ) : ℂ) * zrot N (-((m + j) * k : ℤ)))
  rw [Finset.sum_congr rfl hstep2]
  rw [Finset.sum_mul_sum]
  rw [Finset.sum_comm]
  apply Finset.sum_congr rfl
  intro j _
  apply Finset.sum_congr rfl
  intro m _
  have hsplit : (-(((j : ℤ) + (m : ℤ)) * (k : ℤ))) = (-(j * k : ℤ)) + (-(m * k : ℤ)) := by
    ring
  rw [hsplit, zrot_add]
  ring

/-! ### Noiseless round-trip recovery -/

theorem addNoise_zero (y : List ℝ) (us : ℕ → ℝ × ℝ) : addNoise y 0 us = y := by
  unfold addNoise
  have hfn : (fun i : Fin y.length => y.getD i 0 + boxMullerZ (us i).1 (us i).2 * 0)
      = fun i : Fin y.length => y[(i : ℕ)] := by
    funext i
    rw [mul_zero, add_zero]
    exact List.getD_eq_getElem y 0 i.isLt
  rw [hfn, List.ofFn_getElem]

theorem flatMap_replicate_length (val : Char → ℝ) (sps : ℕ) (bits : List Char) :
    (bits.flatMap fun b => List.replicate sps (val b)).length = bits.length * sps := by
  rw [List.length_flatMap]
  have hmap : (List.map (List.length ∘ fun b => List.replicate sps (val b)) bits)
      = List.replicate bits.length sps := by
    rw [← List.map_const']
    congr 1
    funext b
    simp
  rw [hmap, List.sum_replicate, smul_eq_mul]

theorem generateSignal_length (bits : List Char) (sps : ℕ) :
    (generateSignal bits sps).length = bits.length * sps + 2 * sps := by
  unfold generateSignal
  rw [List.length_append, List.length_replicate, flatMap_replicate_length]

theorem generateChannel_length (taps : List (ℕ × ℝ)) :
    (generateChannel taps).length = maxDelay taps + 1 := by
  unfold generateChannel
  simp

theorem flatMap_replicate_getD (val : Char → ℝ) (sps : ℕ) :
    ∀ (bits : List Char) (i r : ℕ), i < bits.length → r < sps →
    (bits.flatMap fun b => List.replicate sps (val b)).getD (i * sps + r) 0
      = val (bits.getD i ' ') := by
  intro bits
  induction bits with
  | nil => intro i r hi; simp at hi
  | cons b bs ih =>
    intro i r hi hr
    cases i with
    | zero =>
      simp only [List.flatMap_cons]
      rw [List.getD_append]
      · rw [List.getD_eq_getElem]
        · simp
        · simpa using hr
      · simpa using hr
    | succ n =>
      simp only [List.flatMap_cons]
      rw [List.getD_append_right]
      · simp only [List.length_replicate]
        have h2 : (n + 1) * sps + r - sps = n * sps + r := by
          have h3 : (n + 1) * sps = n * sps + sps := by ring
          omega
        rw [h2]
        have h4 := ih n r (by simpa using hi) hr
        simpa using h4
      · simp only [List.length_replicate]
        nlinarith

/-- Sample value at the decode index `i*sps + r` (for `r < sps`): the symbol
value of bit `i`. -/
theorem generateSignal_getD (bits : List Char) (sps : ℕ) (i r : ℕ)
    (hi : i < bits.length) (hr : r < sps) :
    (generateSignal bits sps).getD (i * sps + r) 0
      = if bits.getD i ' ' = '1' then (1:ℝ) else -1 := by
  unfold generateSignal
  rw [List.getD_append]
  · exact flatMap_replicate_getD (fun b => if b = '1' then (1:ℝ) else -1) sps bits i r hi hr
  · rw [flatMap_replicate_length]
    have h1 : (i + 1) * sps = i * sps + sps := by ring
    have h2 : (i + 1) * sps ≤ bits.length * sps := Nat.mul_le_mul_right sps hi
    omega

theorem filterMap_eq_map_of_forall_some {α β : Type*} (l : List α) (f : α → Option β)
    (g : α → β) (h : ∀ a ∈ l, f a = some (g a)) : l.filterMap f = l.map g := by
  induction l with
  | nil => rfl
  | cons a t ih =>
    rw [List.filterMap_cons, h a (by simp), List.map_cons]
    rw [ih (fun b hb => h b (by simp [hb]))]

theorem map_getD_range (bits : List Char) :
    (List.range bits.length).map (fun i => bits.getD i ' ') = bits := by
  apply List.ext_getElem
  · simp
  · intro i h1 h2
    rw [List.getElem_map, List.getElem_range]
    exact List.getD_eq_getElem bits ' ' h2

/-- Core of the round-trip: when every padded-channel bin has modulus at least
`epsilon`, equalizing the convolved signal and taking the real part of the
inverse FFT reproduces the zero-padded input exactly. -/
theorem equalized_recovers (x h : List ℝ) (hx : 0 < x.length) (hh : 0 < h.length)
    (hH : ∀ k < x.length + h.length - 1,
      epsilon ≤ Complex.abs
        ((fft ((padTo h (x.length + h.length - 1)).map (fun r : ℝ => (r : ℂ)))).getD k 0)) :
    (ifft (List.zipWith (· * ·)
        (fft ((convolveSignals x h).map (fun r : ℝ => (r : ℂ))))
        ((fft ((padTo h (x.length + h.length - 1)).map (fun r : ℝ => (r : ℂ)))).map
          equalizerE))).map Complex.re
      = padTo x (x.length + h.length - 1) := by
  have hepsPos : (0:ℝ) < epsilon := by unfold epsilon; norm_num
  have hlenY : (fft ((convolveSignals x h).map (fun r : ℝ => (r : ℂ)))).length
      = x.length + h.length - 1 := by
    rw [fft_length, List.length_map, convolveSignals_length]
  have hlenH : (fft ((padTo h (x.length + h.length - 1)).map (fun r : ℝ => (r : ℂ)))).length
      = x.length + h.length - 1 := by
    rw [fft_length, List.length_map, padTo_length]
  have hkey : List.zipWith (· * ·)
      (fft ((convolveSignals x h).map (fun r : ℝ => (r : ℂ))))
      ((fft ((padTo h (x.length + h.length - 1)).map (fun r : ℝ => (r : ℂ)))).map equalizerE)
        = fft ((padTo x (x.length + h.length - 1)).map (fun r : ℝ => (r : ℂ))) := by
    apply List.ext_getElem
    · rw [List.length_zipWith, hlenY, List.length_map, hlenH, fft_length, List.length_map,
        padTo_length]
      simp
    · intro k hk1 hk2
      have hkN : k < x.length + h.length - 1 := by
        rw [List.length_zipWith, hlenY, List.length_map, hlenH] at hk1
        simpa using hk1
      rw [List.getElem_zipWith]
      have hbY : k < (fft ((convolveSignals x h).map (fun r : ℝ => (r : ℂ)))).length := by
        rw [hlenY]; exact hkN
      have hbE : k < ((fft ((padTo h (x.length + h.length - 1)).map
          (fun r : ℝ => (r : ℂ)))).map equalizerE).length := by
        rw [List.length_map, hlenH]; exact hkN
      have hY : (fft ((convolveSignals x h).map (fun r : ℝ => (r : ℂ))))[k]
          = (fft ((convolveSignals x h).map (fun r : ℝ => (r : ℂ)))).getD k 0 := by
        rw [List.getD_eq_getElem _ _ (by rw [hlenY]; exact hkN)]
      have hE : ((fft ((padTo h (x.length + h.length - 1)).map
            (fun r : ℝ => (r : ℂ)))).map equalizerE)[k]
          = equalizerE ((fft ((padTo h (x.length + h.length - 1)).map
              (fun r : ℝ => (r : ℂ)))).getD k 0) := by
        rw [List.getElem_map]
        rw [List.getD_eq_getElem _ _ (by rw [hlenH]; exact hkN)]
      rw [hY, hE]
      rw [fft_convolve_getD x h hx hh k hkN]
      have habs := hH k hkN
      have hne : (fft ((padTo h (x.length + h.length - 1)).map
          (fun r : ℝ => (r : ℂ)))).getD k 0 ≠ 0 := by
        intro h0
        rw [h0] at habs
        simp at habs
        linarith
      have hEeq : equalizerE ((fft ((padTo h (x.length + h.length - 1)).map
          (fun r : ℝ => (r : ℂ)))).getD k 0)
            = 1 / ((fft ((padTo h (x.length + h.length - 1)).map
              (fun r : ℝ => (r : ℂ)))).getD k 0) := by
        unfold equalizerE eqDenom
        rw [if_neg (not_lt.mpr habs)]
      rw [hEeq, mul_one_div, mul_div_assoc, div_self hne, mul_one]
      exact List.getD_eq_getElem _ _ (by rw [fft_length, List.length_map, padTo_length]; exact hkN)
  rw [hkey, ifft_fft, List.map_map]
  have hcomp : (Complex.re ∘ fun r : ℝ => (r : ℂ)) = id := by
    funext r
    simp
  rw [hcomp, List.map_id]

/-- Decoding a recovered signal that equals the zero-padded transmitted
waveform reproduces the input bits: every decode index lands inside the
symbol it samples, and thresholding `±1` at zero undoes the BPSK mapping. -/
theorem performEqualization_decode (Y E : List ℂ) (bits : List Char) (sps : ℕ)
    (hsps : 1 ≤ sps) (hchars : ∀ c ∈ bits, c = '0' ∨ c = '1') (N : ℕ)
    (hrec : (ifft (List.zipWith (· * ·) Y E)).map Complex.re
      = padTo (generateSignal bits sps) N)
    (hNlen : (generateSignal bits sps).length ≤ N) :
    performEqualization Y E bits.length sps = bits := by
  show (List.range bits.length).filterMap (fun i =>
      if i * sps + sps / 2 < ((ifft (List.zipWith (· * ·) Y E)).map Complex.re).length then
        some (if 0 < ((ifft (List.zipWith (· * ·) Y E)).map Complex.re).getD
            (i * sps + sps / 2) 0 then '1' else '0')
      else none) = bits
  rw [hrec]
  have hlen : (padTo (generateSignal bits sps) N).length = N := padTo_length _ _
  have hdec : ∀ i ∈ List.range bits.length,
      (if i * sps + sps / 2 < (padTo (generateSignal bits sps) N).length then
        some (if 0 < (padTo (generateSignal bits sps) N).getD (i * sps + sps / 2) 0
          then '1' else '0')
      else none) = some (bits.getD i ' ') := by
    intro i hi
    have hi' : i < bits.length := List.mem_range.mp hi
    have hr : sps / 2 < sps := Nat.div_lt_self (by omega) (by omega)
    have hidxx : i * sps + sps / 2 < (generateSignal bits sps).length := by
      rw [generateSignal_length]
      have h1 : (i + 1) * sps ≤ bits.length * sps := Nat.mul_le_mul_right sps hi'
      have h2 : (i + 1) * sps = i * sps + sps := by ring
      omega
    have hidxN : i * sps + sps / 2 < N := lt_of_lt_of_le hidxx hNlen
    rw [if_pos (by rw [hlen]; exact hidxN)]
    congr 1
    rw [padTo_getD _ _ _ hidxN, generateSignal_getD bits sps i (sps / 2) hi' hr]
    have hmem : bits.getD i ' ' ∈ bits := by
      rw [List.getD_eq_getElem _ _ hi']
      exact List.getElem_mem _
    rcases hchars (bits.getD i ' ') hmem with h0 | h1
    · rw [h0, if_neg (by decide : ¬ ('0':Char) = '1'), if_neg (by norm_num : ¬ (0:ℝ) < -1)]
    · rw [h1, if_pos (rfl : ('1':Char) = '1'), if_pos (by norm_num : (0:ℝ) < 1)]
  exact (filterMap_eq_map_of_forall_some _ _ _ hdec).trans (map_getD_range bits)

/-- The spectrum of the zero-padded channel computed by `performFFT` inside
the noiseless pipeline (`N = x.length + h.length - 1`). -/
noncomputable def pipelineChannelSpectrum (bits : List Char) (sps : ℕ)
    (taps : List (ℕ × ℝ)) : List ℂ :=
  fft ((padTo (generateChannel taps)
    ((generateSignal bits sps).length + (generateChannel taps).length - 1)).map
      (fun r : ℝ => (r : ℂ)))

/-- **C1 (amended)**: with `noiseVariance = 0` (any noise draws), any non-empty
`'0'`/`'1'` bit string, any `samplesPerSymbol ≥ 1`, and a channel all of whose
zero-padded FFT bins have modulus at least `epsilon = 1e-6` (so the equalizer's
epsilon guard never fires and `E = 1/H` exactly), the five pipeline stages
return `recoveredBits` equal to the input bit string. -/
theorem pipeline_noiseless_roundtrip (bits : List Char) (sps : ℕ) (taps : List (ℕ × ℝ))
    (us : ℕ → ℝ × ℝ) (_hbits : bits ≠ []) (hchars : ∀ c ∈ bits, c = '0' ∨ c = '1')
    (hsps : 1 ≤ sps)
    (hH : ∀ k < (generateSignal bits sps).length + (generateChannel taps).length - 1,
      epsilon ≤ Complex.abs ((pipelineChannelSpectrum bits sps taps).getD k 0)) :
    pipeline bits sps taps 0 us = bits := by
  have hxlen := generateSignal_length bits sps
  have hhlen := generateChannel_length taps
  have h2sps : 0 < 2 * sps := by omega
  have hxpos : 0 < (generateSignal bits sps).length := by
    rw [hxlen]
    exact Nat.lt_of_lt_of_le h2sps (Nat.le_add_left _ _)
  have hhpos : 0 < (generateChannel taps).length := by
    rw [hhlen]
    omega
  have hrec := equalized_recovers (generateSignal bits sps) (generateChannel taps) hxpos hhpos hH
  have hpipe : pipeline bits sps taps 0 us
      = performEqualization
          (fft ((addNoise (convolveSignals (generateSignal bits sps) (generateChannel taps))
            0 us).map (fun r : ℝ => (r : ℂ))))
          ((fft ((padTo (generateChannel taps)
              (addNoise (convolveSignals (generateSignal bits sps) (generateChannel taps))
                0 us).length).map (fun r : ℝ => (r : ℂ)))).map equalizerE)
          bits.length sps := by
    simp only [pipeline, performFFT]
  rw [hpipe, addNoise_zero, convolveSignals_length]
  exact performEqualization_decode _ _ bits sps hsps hchars
    ((generateSignal bits sps).length + (generateChannel taps).length - 1) hrec (by omega)

/-! ### The spec's reference instance: "10110" through taps (0,1),(5,0.5),(12,-0.3) -/

theorem zrot_abs (N : ℕ) (m : ℤ) : Complex.abs (zrot N m) = 1 := by
  have h : zrot N m = Complex.exp (((2 * Real.pi * m / N : ℝ) : ℂ) * Complex.I) := by
    unfold zrot
    congr 1
    push_cast
    ring
  rw [h, Complex.abs_exp_ofReal_mul_I]

theorem cabs_lower (z w : ℂ) : Complex.abs z - Complex.abs w ≤ Complex.abs (z + w) := by
  have h := Complex.abs.add_le (z + w) (-w)
  simp at h
  linarith

theorem generateChannel_10110 : generateChannel [(0,(1:ℝ)),(5,0.5),(12,-0.3)]
    = [1,0,0,0,0,0.5,0,0,0,0,0,0,-0.3] := by
  unfold generateChannel
  norm_num [maxDelay, List.ofFn_succ]

/-- Every bin of the zero-padded spectrum of the reference channel has modulus
at least `1 - 0.5 - 0.3 = 0.2 ≥ epsilon`, by the triangle inequality — the
channel has no deep fades at all. -/
theorem taps10110_spectrum_bound :
    ∀ k < 82, epsilon ≤ Complex.abs
      ((pipelineChannelSpectrum ['1','0','1','1','0'] 10 [(0,(1:ℝ)),(5,0.5),(12,-0.3)]).getD k 0) := by
  intro k hk
  have hN : (generateSignal ['1','0','1','1','0'] 10).length
      + (generateChannel [(0,(1:ℝ)),(5,0.5),(12,-0.3)]).length - 1 = 82 := by
    rw [generateSignal_length, generateChannel_length]
    norm_num [maxDelay]
  unfold pipelineChannelSpectrum
  rw [hN, generateChannel_10110]
  rw [fft_pad_getD _ 82 k (by norm_num) hk]
  have hexp : (∑ m ∈ Finset.range ([1,0,0,0,0,0.5,0,0,0,0,0,0,-0.3] : List ℝ).length,
      ((([1,0,0,0,0,0.5,0,0,0,0,0,0,-0.3] : List ℝ).getD m 0 : ℝ) : ℂ) * zrot 82 (-(m * k)))
      = 1 + ((0.5:ℝ) : ℂ) * zrot 82 (-(5 * k)) + ((-0.3:ℝ) : ℂ) * zrot 82 (-(12 * k)) := by
    norm_num
    rw [Finset.sum_range_succ, Finset.sum_range_succ, Finset.sum_range_succ,
      Finset.sum_range_succ, Finset.sum_range_succ, Finset.sum_range_succ,
      Finset.sum_range_succ, Finset.sum_range_succ, Finset.sum_range_succ,
      Finset.sum_range_succ, Finset.sum_range_succ, Finset.sum_range_succ,
      Finset.sum_range_succ, Finset.sum_range_zero]
    norm_num [zrot]
  rw [hexp]
  have ha1 : Complex.abs (((0.5:ℝ) : ℂ) * zrot 82 (-(5 * k))) = 0.5 := by
    rw [map_mul, zrot_abs, mul_one, Complex.abs_ofReal]
    norm_num
  have ha2 : Complex.abs (((-0.3:ℝ) : ℂ) * zrot 82 (-(12 * k))) = 0.3 := by
    rw [map_mul, zrot_abs, mul_one, Complex.abs_ofReal]
    norm_num
  have h1 := cabs_lower (1 + ((0.5:ℝ) : ℂ) * zrot 82 (-(5 * k)))
    (((-0.3:ℝ) : ℂ) * zrot 82 (-(12 * k)))
  have h2 := cabs_lower (1 : ℂ) (((0.5:ℝ) : ℂ) * zrot 82 (-(5 * k)))
  have hone : Complex.abs (1 : ℂ) = 1 := by simp
  rw [ha2] at h1
  rw [ha1, hone] at h2
  have heps : epsilon = 1e-6 := rfl
  rw [heps]
  linarith

theorem pipeline_noiseless_roundtrip_witness :
    (['1','0','1','1','0'] : List Char) ≠ [] ∧
    (∀ c ∈ (['1','0','1','1','0'] : List Char), c = '0' ∨ c = '1') ∧
    (1 ≤ 10) ∧
    (∀ k < (generateSignal ['1','0','1','1','0'] 10).length
        + (generateChannel [(0,(1:ℝ)),(5,0.5),(12,-0.3)]).length - 1,
      epsilon ≤ Complex.abs
        ((pipelineChannelSpectrum ['1','0','1','1','0'] 10
          [(0,(1:ℝ)),(5,0.5),(12,-0.3)]).getD k 0)) ∧
    pipeline ['1','0','1','1','0'] 10 [(0,(1:ℝ)),(5,0.5),(12,-0.3)] 0 (fun _ => (0, 0))
      = ['1','0','1','1','0'] := by
  have hN : (generateSignal ['1','0','1','1','0'] 10).length
      + (generateChannel [(0,(1:ℝ)),(5,0.5),(12,-0.3)]).length - 1 = 82 := by
    rw [generateSignal_length, generateChannel_length]
    norm_num [maxDelay]
  have hH : ∀ k < (generateSignal ['1','0','1','1','0'] 10).length
      + (generateChannel [(0,(1:ℝ)),(5,0.5),(12,-0.3)]).length - 1,
      epsilon ≤ Complex.abs
        ((pipelineChannelSpectrum ['1','0','1','1','0'] 10
          [(0,(1:ℝ)),(5,0.5),(12,-0.3)]).getD k 0) := by
    rw [hN]
    exact taps10110_spectrum_bound
  refine ⟨by simp, by decide, by norm_num, hH, ?_⟩
  exact pipeline_noiseless_roundtrip ['1','0','1','1','0'] 10 [(0,(1:ℝ)),(5,0.5),(12,-0.3)]
    (fun _ => (0, 0)) (by simp) (by decide) (by norm_num) hH

/-! ### A channel with no exact spectral nulls that still fails to decode

The bins of the zero-padded FFT of the geometric channel
`h = [1, a, a², a³, a⁴, a⁵]` with `a = 1 - 1e-9` are
`H(k) = (1 - a⁶·ω⁻⁶ᵏ)/(1 - a·ω⁻ᵏ)` (`ω = e^{2πi/24}`): none of them vanishes,
but the five bins `k ∈ {4,8,12,16,20}` have modulus below `epsilon`, so the
equalizer guard perturbs them and the recovery is no longer exact.  With the
17-bit input `10000010000010000` the distortion flips the very first decoded
bit. -/

theorem sum_pow_root (n : ℕ) (_hn : 0 < n) (z : ℂ) (hz : z ^ n = 1) :
    ∑ t ∈ Finset.range n, z ^ t = if z = 1 then (n:ℂ) else 0 := by
  by_cases hone : z = 1
  · rw [if_pos hone, hone]
    simp
  · rw [if_neg hone, geom_sum_eq hone, hz, sub_self, zero_div]

theorem zrot_im (N : ℕ) (m : ℤ) : (zrot N m).im = Real.sin (2 * Real.pi * m / N) := by
  have h : zrot N m = Complex.exp (((2 * Real.pi * m / N : ℝ) : ℂ) * Complex.I) := by
    unfold zrot
    congr 1
    push_cast
    ring
  rw [h, Complex.exp_ofReal_mul_I_im]

/-- The tap decay factor of the counterexample channel, `1 - 1e-9`. -/
noncomputable def acex : ℝ := 0.999999999

/-- The counterexample input bits: `'1'` at positions 0, 6 and 12 of a 17-bit
string. -/
def cexBits : List Char :=
  ['1','0','0','0','0','0','1','0','0','0','0','0','1','0','0','0','0']

/-- The counterexample taps: a geometric six-tap channel `(j, acex^j)`. -/
noncomputable def cexTaps : List (ℕ × ℝ) :=
  [(0, 1), (1, acex), (2, acex ^ 2), (3, acex ^ 3), (4, acex ^ 4), (5, acex ^ 5)]

theorem generateChannel_cex :
    generateChannel cexTaps = [1, acex, acex ^ 2, acex ^ 3, acex ^ 4, acex ^ 5] := by
  unfold generateChannel cexTaps
  norm_num [maxDelay, List.ofFn_succ]

theorem generateSignal_cex :
    generateSignal cexBits 1
      = [1,-1,-1,-1,-1,-1,1,-1,-1,-1,-1,-1,1,-1,-1,-1,-1,0,0] := by
  unfold generateSignal cexBits
  norm_num [List.replicate_succ]
  decide

theorem cexN_eq : (generateSignal cexBits 1).length + (generateChannel cexTaps).length - 1
    = 24 := by
  rw [generateSignal_length, generateChannel_length]
  unfold cexBits cexTaps
  norm_num [maxDelay]

theorem acex_pos : (0:ℝ) < acex := by unfold acex; norm_num

theorem acex_lt_one : acex < 1 := by unfold acex; norm_num

/-- `H(k)·(1 - a·ω⁻ᵏ) = 1 - a⁶·ω⁻⁶ᵏ` for every bin of the counterexample
channel. -/
theorem cex_H_identity (k : ℕ) (hk : k < 24) :
    (pipelineChannelSpectrum cexBits 1 cexTaps).getD k 0
        * (1 - ((acex : ℝ) : ℂ) * zrot 24 (-(k:ℤ)))
      = 1 - ((acex : ℝ) : ℂ) ^ 6 * zrot 24 (-(6 * k : ℤ)) := by
  unfold pipelineChannelSpectrum
  rw [cexN_eq, generateChannel_cex]
  rw [fft_pad_getD _ 24 k (by norm_num) hk]
  have hpow : ∀ m : ℕ, zrot 24 (-(m * k : ℤ)) = zrot 24 (-(k:ℤ)) ^ m := by
    intro m
    rw [← zrot_natMul]
    congr 1
    ring
  rw [show ([1, acex, acex ^ 2, acex ^ 3, acex ^ 4, acex ^ 5] : List ℝ).length = 6 by norm_num]
  rw [Finset.sum_range_succ, Finset.sum_range_succ, Finset.sum_range_succ,
    Finset.sum_range_succ, Finset.sum_range_succ, Finset.sum_range_succ,
    Finset.sum_range_zero]
  rw [hpow 0, hpow 1, hpow 2, hpow 3, hpow 4, hpow 5]
  rw [show (-(6 * k : ℤ)) = ((6:ℕ):ℤ) * (-(k:ℤ)) by ring, zrot_natMul]
  norm_num
  ring

theorem zrot_eq_exp_mul_I (N : ℕ) (m : ℤ) :
    zrot N m = Complex.exp (((2 * Real.pi * m / N : ℝ) : ℂ) * Complex.I) := by
  unfold zrot
  congr 1
  push_cast
  ring

theorem zrot_eq_cos_sin (N : ℕ) (m : ℤ) :
    zrot N m = ((Real.cos (2 * Real.pi * m / N) : ℝ) : ℂ)
      + ((Real.sin (2 * Real.pi * m / N) : ℝ) : ℂ) * Complex.I := by
  rw [zrot_eq_exp_mul_I, Complex.exp_mul_I, Complex.ofReal_cos, Complex.ofReal_sin]

theorem zrot_one_of_dvd (N : ℕ) (hN : 0 < N) (m : ℤ) (h : (N:ℤ) ∣ m) : zrot N m = 1 :=
  (zrot_eq_one_iff N hN m).mpr h

theorem zrot_congr_of_dvd (N : ℕ) (hN : 0 < N) (m m' : ℤ) (h : (N:ℤ) ∣ (m - m')) :
    zrot N m = zrot N m' := by
  have : zrot N (m' + (m - m')) = zrot N m' * zrot N (m - m') := zrot_add N m' (m - m')
  rw [zrot_one_of_dvd N hN _ h, mul_one] at this
  rw [← this]
  congr 1
  ring

theorem cex_denom_ne (k : ℕ) : (1 : ℂ) - ((acex : ℝ) : ℂ) * zrot 24 (-(k:ℤ)) ≠ 0 := by
  intro h0
  have h1 : ((acex : ℝ) : ℂ) * zrot 24 (-(k:ℤ)) = 1 := by
    have := sub_eq_zero.mp h0
    exact this.symm
  have h2 : Complex.abs (((acex : ℝ) : ℂ) * zrot 24 (-(k:ℤ))) = acex := by
    rw [map_mul, zrot_abs, mul_one, Complex.abs_ofReal, abs_of_pos acex_pos]
  rw [h1] at h2
  simp at h2
  have := acex_lt_one
  rw [← h2] at this
  exact lt_irrefl 1 this

/-- Numerical bound `1 - acex^6 ≤ 6e-9` (Bernoulli). -/
theorem acex_pow_six_bound : 1 - acex ^ 6 ≤ 6e-9 := by
  have hb : 1 + (6:ℕ) * (acex - 1) ≤ (1 + (acex - 1)) ^ (6:ℕ) :=
    one_add_mul_le_pow (by unfold acex; norm_num) 6
  have h1 : (1:ℝ) + (acex - 1) = acex := by ring
  rw [h1] at hb
  unfold acex at hb ⊢
  norm_num at hb ⊢

theorem sqrt_three_ge : (1.7:ℝ) ≤ Real.sqrt 3 := by
  rw [show (1.7:ℝ) = Real.sqrt (1.7^2) by rw [Real.sqrt_sq (by norm_num)]]
  exact Real.sqrt_le_sqrt (by norm_num)

/-- Common tiny-bin bound: if `ω⁻⁶ᵏ = 1` and the denominator `|1 - a·ω⁻ᵏ|` is
at least `0.84`, then `|H(k)| ≤ 8e-9 < epsilon`, and `H(k) ≠ 0`. -/
theorem cex_tiny_bin (k : ℕ) (hk : k < 24)
    (hdvd : zrot 24 (-(6 * k : ℤ)) = 1)
    (hlow : (0.84:ℝ) ≤ Complex.abs (1 - ((acex : ℝ) : ℂ) * zrot 24 (-(k:ℤ)))) :
    Complex.abs ((pipelineChannelSpectrum cexBits 1 cexTaps).getD k 0) ≤ 8e-9 ∧
    Complex.abs ((pipelineChannelSpectrum cexBits 1 cexTaps).getD k 0) < epsilon ∧
    (pipelineChannelSpectrum cexBits 1 cexTaps).getD k 0 ≠ 0 := by
  have hid := cex_H_identity k hk
  rw [hdvd, mul_one] at hid
  have hnum : (1:ℂ) - ((acex : ℝ) : ℂ) ^ 6 = (((1 - acex ^ 6 : ℝ)) : ℂ) := by
    push_cast
    ring
  rw [hnum] at hid
  have habs : Complex.abs ((pipelineChannelSpectrum cexBits 1 cexTaps).getD k 0)
      * Complex.abs (1 - ((acex : ℝ) : ℂ) * zrot 24 (-(k:ℤ))) = 1 - acex ^ 6 := by
    rw [← map_mul, hid, Complex.abs_ofReal, abs_of_pos]
    nlinarith [acex_lt_one, acex_pos, pow_lt_one₀ (le_of_lt acex_pos) acex_lt_one (by norm_num : (6:ℕ) ≠ 0)]
  have hub : Complex.abs ((pipelineChannelSpectrum cexBits 1 cexTaps).getD k 0) ≤ 8e-9 := by
    have h6 := acex_pow_six_bound
    nlinarith [Complex.abs.nonneg ((pipelineChannelSpectrum cexBits 1 cexTaps).getD k 0)]
  refine ⟨hub, lt_of_le_of_lt hub (by unfold epsilon; norm_num), ?_⟩
  intro h0
  rw [h0, map_zero, zero_mul] at habs
  have := acex_pow_six_bound
  nlinarith [pow_lt_one₀ (le_of_lt acex_pos) acex_lt_one (by norm_num : (6:ℕ) ≠ 0)]

/-- Common good-bin bound: if `|1 - a⁶·ω⁻⁶ᵏ| ≥ 1` then `|H(k)| ≥ 1/2 ≥ epsilon`. -/
theorem cex_good_bin (k : ℕ) (hk : k < 24) (z : ℂ)
    (hz : zrot 24 (-(6 * k : ℤ)) = z)
    (hzabs : 1 ≤ Complex.abs (1 - ((acex : ℝ) : ℂ) ^ 6 * z)) :
    epsilon ≤ Complex.abs ((pipelineChannelSpectrum cexBits 1 cexTaps).getD k 0) := by
  have hid := cex_H_identity k hk
  rw [hz] at hid
  have habs : Complex.abs ((pipelineChannelSpectrum cexBits 1 cexTaps).getD k 0)
      * Complex.abs (1 - ((acex : ℝ) : ℂ) * zrot 24 (-(k:ℤ)))
      = Complex.abs (1 - ((acex : ℝ) : ℂ) ^ 6 * z) := by
    rw [← map_mul, hid]
  have hden : Complex.abs (1 - ((acex : ℝ) : ℂ) * zrot 24 (-(k:ℤ))) ≤ 2 := by
    have h1 : Complex.abs (1 - ((acex : ℝ) : ℂ) * zrot 24 (-(k:ℤ)))
        ≤ Complex.abs 1 + Complex.abs (((acex : ℝ) : ℂ) * zrot 24 (-(k:ℤ))) := by
      rw [sub_eq_add_neg]
      refine le_trans (Complex.abs.add_le _ _) ?_
      rw [map_neg_eq_map]
    have h2 : Complex.abs (((acex : ℝ) : ℂ) * zrot 24 (-(k:ℤ))) = acex := by
      rw [map_mul, zrot_abs, mul_one, Complex.abs_ofReal, abs_of_pos acex_pos]
    rw [h2] at h1
    simp at h1
    linarith [acex_lt_one]
  have heps : epsilon = 1e-6 := rfl
  rw [heps]
  nlinarith [Complex.abs.nonneg ((pipelineChannelSpectrum cexBits 1 cexTaps).getD k 0)]

theorem zrot24_neg6 : zrot 24 (-6) = -Complex.I := by
  rw [zrot_eq_cos_sin]
  have harg : 2 * Real.pi * ((-6:ℤ):ℝ) / ((24:ℕ):ℝ) = -(Real.pi / 2) := by
    push_cast
    ring
  rw [harg, Real.cos_neg, Real.sin_neg, Real.cos_pi_div_two, Real.sin_pi_div_two]
  push_cast
  ring

theorem zrot24_neg12 : zrot 24 (-12) = -1 := by
  rw [zrot_eq_cos_sin]
  have harg : 2 * Real.pi * ((-12:ℤ):ℝ) / ((24:ℕ):ℝ) = -Real.pi := by
    push_cast
    ring
  rw [harg, Real.cos_neg, Real.sin_neg, Real.cos_pi, Real.sin_pi]
  push_cast
  ring

theorem zrot24_neg18 : zrot 24 (-18) = Complex.I := by
  rw [zrot_eq_cos_sin]
  have harg : 2 * Real.pi * ((-18:ℤ):ℝ) / ((24:ℕ):ℝ) = Real.pi / 2 - 2 * Real.pi := by
    push_cast
    ring
  rw [harg, Real.cos_sub_two_pi, Real.sin_sub_two_pi, Real.cos_pi_div_two, Real.sin_pi_div_two]
  push_cast
  ring

theorem cex_habs_negI : 1 ≤ Complex.abs (1 - ((acex : ℝ) : ℂ) ^ 6 * (-Complex.I)) := by
  have hre : (1 - ((acex : ℝ) : ℂ) ^ 6 * (-Complex.I)).re = 1 := by
    simp [← Complex.ofReal_pow]
  calc (1:ℝ) = |(1 - ((acex : ℝ) : ℂ) ^ 6 * (-Complex.I)).re| := by rw [hre]; norm_num
    _ ≤ _ := Complex.abs_re_le_abs _

theorem cex_habs_I : 1 ≤ Complex.abs (1 - ((acex : ℝ) : ℂ) ^ 6 * Complex.I) := by
  have hre : (1 - ((acex : ℝ) : ℂ) ^ 6 * Complex.I).re = 1 := by
    simp [← Complex.ofReal_pow]
  calc (1:ℝ) = |(1 - ((acex : ℝ) : ℂ) ^ 6 * Complex.I).re| := by rw [hre]; norm_num
    _ ≤ _ := Complex.abs_re_le_abs _

theorem cex_habs_negOne : 1 ≤ Complex.abs (1 - ((acex : ℝ) : ℂ) ^ 6 * (-1)) := by
  have h1 : ((1:ℂ) - ((acex : ℝ) : ℂ) ^ 6 * (-1)) = ((1 + acex ^ 6 : ℝ) : ℂ) := by
    push_cast
    ring
  rw [h1, Complex.abs_ofReal, abs_of_pos (by positivity)]
  nlinarith [pow_nonneg (le_of_lt acex_pos) 6]

/-- Bin 0 is large: `H(0) = (1-a⁶)/(1-a) ≥ 1`. -/
theorem cex_bin_zero : epsilon ≤ Complex.abs ((pipelineChannelSpectrum cexBits 1 cexTaps).getD 0 0) := by
  have hid := cex_H_identity 0 (by norm_num)
  rw [show (-(6 * ((0:ℕ):ℤ))) = (0:ℤ) by norm_num, show (-((0:ℕ):ℤ)) = (0:ℤ) by norm_num,
    zrot_zero, mul_one, mul_one] at hid
  have hsub1 : ((1:ℂ) - ((acex : ℝ) : ℂ)) = (((1 - acex : ℝ)) : ℂ) := by push_cast; ring
  have hsub6 : ((1:ℂ) - ((acex : ℝ) : ℂ) ^ 6) = (((1 - acex ^ 6 : ℝ)) : ℂ) := by push_cast; ring
  rw [hsub1, hsub6] at hid
  have h1a : (0:ℝ) < 1 - acex := by
    have := acex_lt_one
    linarith
  have h16 : 1 - acex ≤ 1 - acex ^ 6 := by
    have := pow_le_of_le_one (le_of_lt acex_pos) (le_of_lt acex_lt_one) (by norm_num : (6:ℕ) ≠ 0)
    linarith
  have habs : Complex.abs ((pipelineChannelSpectrum cexBits 1 cexTaps).getD 0 0) * (1 - acex)
      = 1 - acex ^ 6 := by
    have := congrArg Complex.abs hid
    rw [map_mul, Complex.abs_ofReal, Complex.abs_ofReal, abs_of_pos h1a,
      abs_of_pos (lt_of_lt_of_le h1a h16)] at this
    exact this
  have heps : epsilon = 1e-6 := rfl
  rw [heps]
  nlinarith [Complex.abs.nonneg ((pipelineChannelSpectrum cexBits 1 cexTaps).getD 0 0)]

/-- Denominator lower bound `|1 - a·ω⁻ᵏ| ≥ 0.84` when `|Im ω⁻ᵏ| = √3/2`. -/
theorem cex_denom_low (k : ℕ) (s : ℝ) (him : (zrot 24 (-(k:ℤ))).im = s)
    (hs : |s| = Real.sqrt 3 / 2) :
    (0.84:ℝ) ≤ Complex.abs (1 - ((acex : ℝ) : ℂ) * zrot 24 (-(k:ℤ))) := by
  have him2 : (1 - ((acex : ℝ) : ℂ) * zrot 24 (-(k:ℤ))).im = -(acex * s) := by
    rw [Complex.sub_im, Complex.one_im, Complex.mul_im]
    rw [Complex.ofReal_re, Complex.ofReal_im, him]
    ring
  have hle := Complex.abs_im_le_abs (1 - ((acex : ℝ) : ℂ) * zrot 24 (-(k:ℤ)))
  rw [him2, abs_neg, abs_mul, abs_of_pos acex_pos, hs] at hle
  have hs3 := sqrt_three_ge
  have ha : (0.999999999:ℝ) = acex := rfl
  nlinarith

theorem cex_zrot4_im : (zrot 24 (-((4:ℕ):ℤ))).im = -(Real.sqrt 3 / 2) := by
  rw [zrot_im]
  push_cast
  rw [show 2 * Real.pi * -(4:ℝ) / (24:ℝ) = -(Real.pi / 3) by ring]
  rw [Real.sin_neg, Real.sin_pi_div_three]

theorem cex_zrot8_im : (zrot 24 (-((8:ℕ):ℤ))).im = -(Real.sqrt 3 / 2) := by
  rw [zrot_im]
  push_cast
  rw [show 2 * Real.pi * -(8:ℝ) / (24:ℝ) = -(Real.pi - Real.pi / 3) by ring]
  rw [Real.sin_neg, Real.sin_pi_sub, Real.sin_pi_div_three]

theorem cex_zrot16_im : (zrot 24 (-((16:ℕ):ℤ))).im = Real.sqrt 3 / 2 := by
  rw [zrot_im]
  push_cast
  rw [show 2 * Real.pi * -(16:ℝ) / (24:ℝ) = (Real.pi - Real.pi / 3) - 2 * Real.pi by ring]
  rw [Real.sin_sub_two_pi, Real.sin_pi_sub, Real.sin_pi_div_three]

theorem cex_zrot20_im : (zrot 24 (-((20:ℕ):ℤ))).im = Real.sqrt 3 / 2 := by
  rw [zrot_im]
  push_cast
  rw [show 2 * Real.pi * -(20:ℝ) / (24:ℝ) = Real.pi / 3 - 2 * Real.pi by ring]
  rw [Real.sin_sub_two_pi, Real.sin_pi_div_three]

theorem cex_good_of_target (k : ℕ) (hk : k < 24) (t : ℤ) (z : ℂ)
    (hd : (24:ℤ) ∣ (-(6 * k : ℤ) - t)) (hzt : zrot 24 t = z)
    (hzabs : 1 ≤ Complex.abs (1 - ((acex : ℝ) : ℂ) ^ 6 * z)) :
    epsilon ≤ Complex.abs ((pipelineChannelSpectrum cexBits 1 cexTaps).getD k 0) :=
  cex_good_bin k hk z ((zrot_congr_of_dvd 24 (by norm_num) _ _ hd).trans hzt) hzabs

theorem cex_tiny_of (k : ℕ) (hk : k < 24) (hdvd : (24:ℤ) ∣ (-(6 * k : ℤ)))
    (hlow : (0.84:ℝ) ≤ Complex.abs (1 - ((acex : ℝ) : ℂ) * zrot 24 (-(k:ℤ)))) :
    Complex.abs ((pipelineChannelSpectrum cexBits 1 cexTaps).getD k 0) ≤ 8e-9 ∧
    Complex.abs ((pipelineChannelSpectrum cexBits 1 cexTaps).getD k 0) < epsilon ∧
    (pipelineChannelSpectrum cexBits 1 cexTaps).getD k 0 ≠ 0 :=
  cex_tiny_bin k hk (zrot_one_of_dvd 24 (by norm_num) _ hdvd) hlow

theorem cex_hlow4 : (0.84:ℝ) ≤ Complex.abs (1 - ((acex : ℝ) : ℂ) * zrot 24 (-((4:ℕ):ℤ))) :=
  cex_denom_low 4 _ cex_zrot4_im (by
    rw [abs_neg, abs_of_nonneg (by positivity)])

theorem cex_hlow8 : (0.84:ℝ) ≤ Complex.abs (1 - ((acex : ℝ) : ℂ) * zrot 24 (-((8:ℕ):ℤ))) :=
  cex_denom_low 8 _ cex_zrot8_im (by
    rw [abs_neg, abs_of_nonneg (by positivity)])

theorem cex_hlow16 : (0.84:ℝ) ≤ Complex.abs (1 - ((acex : ℝ) : ℂ) * zrot 24 (-((16:ℕ):ℤ))) :=
  cex_denom_low 16 _ cex_zrot16_im (by
    rw [abs_of_nonneg (by positivity)])

theorem cex_hlow20 : (0.84:ℝ) ≤ Complex.abs (1 - ((acex : ℝ) : ℂ) * zrot 24 (-((20:ℕ):ℤ))) :=
  cex_denom_low 20 _ cex_zrot20_im (by
    rw [abs_of_nonneg (by positivity)])

theorem cex_hlow12 : (0.84:ℝ) ≤ Complex.abs (1 - ((acex : ℝ) : ℂ) * zrot 24 (-((12:ℕ):ℤ))) := by
  rw [show (-((12:ℕ):ℤ)) = (-12:ℤ) by norm_num, zrot24_neg12]
  have h1 : (1:ℂ) - ((acex : ℝ) : ℂ) * (-1) = ((1 + acex : ℝ) : ℂ) := by
    push_cast
    ring
  rw [h1, Complex.abs_ofReal, abs_of_pos (by nlinarith [acex_pos])]
  nlinarith [acex_pos]

/-- The five bins `{4,8,12,16,20}` of the counterexample channel are below the
`epsilon` guard but nonzero. -/
theorem cex_tiny_all : ∀ k ∈ ({4, 8, 12, 16, 20} : Finset ℕ),
    Complex.abs ((pipelineChannelSpectrum cexBits 1 cexTaps).getD k 0) ≤ 8e-9 ∧
    Complex.abs ((pipelineChannelSpectrum cexBits 1 cexTaps).getD k 0) < epsilon ∧
    (pipelineChannelSpectrum cexBits 1 cexTaps).getD k 0 ≠ 0 := by
  intro k hmem
  fin_cases hmem
  · exact cex_tiny_of 4 (by norm_num) (by norm_num) cex_hlow4
  · exact cex_tiny_of 8 (by norm_num) (by norm_num) cex_hlow8
  · exact cex_tiny_of 12 (by norm_num) (by norm_num) cex_hlow12
  · exact cex_tiny_of 16 (by norm_num) (by norm_num) cex_hlow16
  · exact cex_tiny_of 20 (by norm_num) (by norm_num) cex_hlow20

/-- All other bins of the counterexample channel are above the `epsilon`
guard. -/
theorem cex_good_all : ∀ k < 24, k ∉ ({4, 8, 12, 16, 20} : Finset ℕ) →
    epsilon ≤ Complex.abs ((pipelineChannelSpectrum cexBits 1 cexTaps).getD k 0) := by
  intro k hk hmem
  interval_cases k
  · exact cex_bin_zero
  · exact cex_good_of_target 1 (by norm_num) (-6) (-Complex.I) (by norm_num) zrot24_neg6 cex_habs_negI
  · exact cex_good_of_target 2 (by norm_num) (-12) (-1) (by norm_num) zrot24_neg12 cex_habs_negOne
  · exact cex_good_of_target 3 (by norm_num) (-18) Complex.I (by norm_num) zrot24_neg18 cex_habs_I
  · exact absurd (by decide) hmem
  · exact cex_good_of_target 5 (by norm_num) (-6) (-Complex.I) (by norm_num) zrot24_neg6 cex_habs_negI
  · exact cex_good_of_target 6 (by norm_num) (-12) (-1) (by norm_num) zrot24_neg12 cex_habs_negOne
  · exact cex_good_of_target 7 (by norm_num) (-18) Complex.I (by norm_num) zrot24_neg18 cex_habs_I
  · exact absurd (by decide) hmem
  · exact cex_good_of_target 9 (by norm_num) (-6) (-Complex.I) (by norm_num) zrot24_neg6 cex_habs_negI
  · exact cex_good_of_target 10 (by norm_num) (-12) (-1) (by norm_num) zrot24_neg12 cex_habs_negOne
  · exact cex_good_of_target 11 (by norm_num) (-18) Complex.I (by norm_num) zrot24_neg18 cex_habs_I
  · exact absurd (by decide) hmem
  · exact cex_good_of_target 13 (by norm_num) (-6) (-Complex.I) (by norm_num) zrot24_neg6 cex_habs_negI
  · exact cex_good_of_target 14 (by norm_num) (-12) (-1) (by norm_num) zrot24_neg12 cex_habs_negOne
  · exact cex_good_of_target 15 (by norm_num) (-18) Complex.I (by norm_num) zrot24_neg18 cex_habs_I
  · exact absurd (by decide) hmem
  · exact cex_good_of_target 17 (by norm_num) (-6) (-Complex.I) (by norm_num) zrot24_neg6 cex_habs_negI
  · exact cex_good_of_target 18 (by norm_num) (-12) (-1) (by norm_num) zrot24_neg12 cex_habs_negOne
  · exact cex_good_of_target 19 (by norm_num) (-18) Complex.I (by norm_num) zrot24_neg18 cex_habs_I
  · exact absurd (by decide) hmem
  · exact cex_good_of_target 21 (by norm_num) (-6) (-Complex.I) (by norm_num) zrot24_neg6 cex_habs_negI
  · exact cex_good_of_target 22 (by norm_num) (-12) (-1) (by norm_num) zrot24_neg12 cex_habs_negOne
  · exact cex_good_of_target 23 (by norm_num) (-18) Complex.I (by norm_num) zrot24_neg18 cex_habs_I

/-- The spectrum of the zero-padded counterexample input. -/
noncomputable def cexX (k : ℕ) : ℂ :=
  (fft ((padTo (generateSignal cexBits 1) 24).map (fun r : ℝ => (r : ℂ)))).getD k 0

theorem cex_x_length : (generateSignal cexBits 1).length = 19 := by
  rw [generateSignal_length]
  norm_num [cexBits]

theorem cex_X_getD (k : ℕ) (hk : k < 24) :
    cexX k = ∑ m ∈ Finset.range 19,
      ((generateSignal cexBits 1).getD m 0 : ℂ) * zrot 24 (-((m:ℤ) * (k:ℤ))) := by
  unfold cexX
  rw [fft_pad_getD _ 24 k (by rw [cex_x_length]; norm_num) hk, cex_x_length]

/-- Orthogonality: summing the input spectrum over all 24 bins isolates sample
0 of the padded input, which is `+1`. -/
theorem cex_sum_X_all : ∑ k ∈ Finset.range 24, cexX k = 24 := by
  rw [Finset.sum_congr rfl (fun k hk => cex_X_getD k (Finset.mem_range.mp hk))]
  rw [Finset.sum_comm]
  have hinner : ∀ m ∈ Finset.range 19,
      ∑ k ∈ Finset.range 24,
        ((generateSignal cexBits 1).getD m 0 : ℂ) * zrot 24 (-((m:ℤ) * (k:ℤ)))
      = ((generateSignal cexBits 1).getD m 0 : ℂ)
          * (if (24:ℤ) ∣ (-(m:ℤ)) then (24:ℂ) else 0) := by
    intro m _
    rw [← Finset.mul_sum]
    congr 1
    rw [Finset.sum_congr rfl (fun k _ => by
      rw [show (-((m:ℤ) * (k:ℤ))) = ((k:ℕ):ℤ) * (-(m:ℤ)) by ring, zrot_natMul])]
    exact sum_zrot_pow 24 (by norm_num) (-(m:ℤ))
  rw [Finset.sum_congr rfl hinner]
  rw [Finset.sum_eq_single 0]
  · rw [if_pos (by norm_num), generateSignal_cex]
    norm_num
  · intro m hm hm0
    have hmr := Finset.mem_range.mp hm
    rw [if_neg]
    · ring
    · rintro ⟨c, hc⟩
      omega
  · intro h0
    exact absurd (Finset.mem_range.mpr (by norm_num)) h0

/-- The five "tiny" bins of the counterexample: geometric sum of the nonzero
sixth roots of unity, evaluated against the input. -/
theorem cex_root_sum (m : ℕ) :
    zrot 24 (-((m:ℤ) * ((4:ℕ):ℤ))) + zrot 24 (-((m:ℤ) * ((8:ℕ):ℤ)))
      + zrot 24 (-((m:ℤ) * ((12:ℕ):ℤ))) + zrot 24 (-((m:ℤ) * ((16:ℕ):ℤ)))
      + zrot 24 (-((m:ℤ) * ((20:ℕ):ℤ)))
      = (if (6:ℤ) ∣ (m:ℤ) then (6:ℂ) else 0) - 1 := by
  have hζ6 : zrot 24 (-((m:ℤ) * ((4:ℕ):ℤ))) ^ 6 = 1 := by
    rw [← zrot_natMul]
    apply zrot_one_of_dvd 24 (by norm_num)
    refine ⟨-(m:ℤ), ?_⟩
    push_cast
    ring
  have hsum := sum_pow_root 6 (by norm_num) _ hζ6
  rw [Finset.sum_range_succ, Finset.sum_range_succ, Finset.sum_range_succ,
    Finset.sum_range_succ, Finset.sum_range_succ, Finset.sum_range_succ,
    Finset.sum_range_zero] at hsum
  have hp : ∀ t : ℕ, zrot 24 (-((m:ℤ) * ((4:ℕ):ℤ))) ^ t
      = zrot 24 ((t:ℕ) * (-((m:ℤ) * ((4:ℕ):ℤ)))) := fun t => (zrot_natMul 24 t _).symm
  have h8 : zrot 24 (-((m:ℤ) * ((4:ℕ):ℤ))) ^ 2 = zrot 24 (-((m:ℤ) * ((8:ℕ):ℤ))) := by
    rw [hp 2]
    congr 1
    push_cast
    ring
  have h12 : zrot 24 (-((m:ℤ) * ((4:ℕ):ℤ))) ^ 3 = zrot 24 (-((m:ℤ) * ((12:ℕ):ℤ))) := by
    rw [hp 3]
    congr 1
    push_cast
    ring
  have h16 : zrot 24 (-((m:ℤ) * ((4:ℕ):ℤ))) ^ 4 = zrot 24 (-((m:ℤ) * ((16:ℕ):ℤ))) := by
    rw [hp 4]
    congr 1
    push_cast
    ring
  have h20 : zrot 24 (-((m:ℤ) * ((4:ℕ):ℤ))) ^ 5 = zrot 24 (-((m:ℤ) * ((20:ℕ):ℤ))) := by
    rw [hp 5]
    congr 1
    push_cast
    ring
  rw [pow_zero, pow_one, h8, h12, h16, h20] at hsum
  have hiff : (zrot 24 (-((m:ℤ) * ((4:ℕ):ℤ))) = 1) ↔ ((6:ℤ) ∣ (m:ℤ)) := by
    rw [zrot_eq_one_iff 24 (by norm_num)]
    constructor
    · rintro ⟨c, hc⟩
      refine ⟨-c, ?_⟩
      push_cast at hc
      linarith
    · rintro ⟨c, hc⟩
      refine ⟨-c, ?_⟩
      push_cast
      rw [hc]
      ring
  rw [if_congr hiff rfl rfl] at hsum
  have h6 : ((6:ℕ):ℂ) = (6:ℂ) := by norm_num
  rw [h6] at hsum
  linear_combination hsum

/-- The input spectrum summed over the five tiny bins equals `29`. -/
theorem cex_sum_X_S : ∑ k ∈ ({4, 8, 12, 16, 20} : Finset ℕ), cexX k = 29 := by
  have hexp : ∑ k ∈ ({4, 8, 12, 16, 20} : Finset ℕ), cexX k
      = cexX 4 + cexX 8 + cexX 12 + cexX 16 + cexX 20 := by
    rw [show ({4, 8, 12, 16, 20} : Finset ℕ)
        = insert 4 (insert 8 (insert 12 (insert 16 {20}))) from rfl]
    rw [Finset.sum_insert (by decide), Finset.sum_insert (by decide),
      Finset.sum_insert (by decide), Finset.sum_insert (by decide),
      Finset.sum_singleton]
    ring
  rw [hexp, cex_X_getD 4 (by norm_num), cex_X_getD 8 (by norm_num),
    cex_X_getD 12 (by norm_num), cex_X_getD 16 (by norm_num), cex_X_getD 20 (by norm_num)]
  rw [← Finset.sum_add_distrib, ← Finset.sum_add_distrib, ← Finset.sum_add_distrib,
    ← Finset.sum_add_distrib]
  have hterm : ∀ m ∈ Finset.range 19,
      ((generateSignal cexBits 1).getD m 0 : ℂ) * zrot 24 (-((m:ℤ) * ((4:ℕ):ℤ)))
        + ((generateSignal cexBits 1).getD m 0 : ℂ) * zrot 24 (-((m:ℤ) * ((8:ℕ):ℤ)))
        + ((generateSignal cexBits 1).getD m 0 : ℂ) * zrot 24 (-((m:ℤ) * ((12:ℕ):ℤ)))
        + ((generateSignal cexBits 1).getD m 0 : ℂ) * zrot 24 (-((m:ℤ) * ((16:ℕ):ℤ)))
        + ((generateSignal cexBits 1).getD m 0 : ℂ) * zrot 24 (-((m:ℤ) * ((20:ℕ):ℤ)))
      = ((generateSignal cexBits 1).getD m 0 : ℂ)
          * ((if (6:ℤ) ∣ (m:ℤ) then (6:ℂ) else 0) - 1) := by
    intro m _
    rw [← cex_root_sum m]
    ring
  rw [Finset.sum_congr rfl hterm]
  rw [generateSignal_cex]
  rw [Finset.sum_range_succ, Finset.sum_range_succ, Finset.sum_range_succ,
    Finset.sum_range_succ, Finset.sum_range_succ, Finset.sum_range_succ,
    Finset.sum_range_succ, Finset.sum_range_succ, Finset.sum_range_succ,
    Finset.sum_range_succ, Finset.sum_range_succ, Finset.sum_range_succ,
    Finset.sum_range_succ, Finset.sum_range_succ, Finset.sum_range_succ,
    Finset.sum_range_succ, Finset.sum_range_succ, Finset.sum_range_succ,
    Finset.sum_range_succ, Finset.sum_range_zero]
  norm_num

/-- Crude bound on the input spectrum: at most the number of nonzero samples. -/
theorem cex_X_bound (k : ℕ) (hk : k < 24) : Complex.abs (cexX k) ≤ 17 := by
  rw [cex_X_getD k hk]
  refine le_trans (Complex.abs.sum_le _ _) ?_
  have hterm : ∀ m ∈ Finset.range 19,
      Complex.abs (((generateSignal cexBits 1).getD m 0 : ℂ) * zrot 24 (-((m:ℤ) * (k:ℤ))))
        = |(generateSignal cexBits 1).getD m 0| := by
    intro m _
    rw [map_mul, zrot_abs, mul_one, Complex.abs_ofReal]
  rw [Finset.sum_congr rfl hterm, generateSignal_cex]
  rw [Finset.sum_range_succ, Finset.sum_range_succ, Finset.sum_range_succ,
    Finset.sum_range_succ, Finset.sum_range_succ, Finset.sum_range_succ,
    Finset.sum_range_succ, Finset.sum_range_succ, Finset.sum_range_succ,
    Finset.sum_range_succ, Finset.sum_range_succ, Finset.sum_range_succ,
    Finset.sum_range_succ, Finset.sum_range_succ, Finset.sum_range_succ,
    Finset.sum_range_succ, Finset.sum_range_succ, Finset.sum_range_succ,
    Finset.sum_range_succ, Finset.sum_range_zero]
  norm_num

theorem cex_h_length : (generateChannel cexTaps).length = 6 := by
  rw [generateChannel_length]
  norm_num [maxDelay, cexTaps]

theorem cex_spectrum_eq : pipelineChannelSpectrum cexBits 1 cexTaps
    = fft ((padTo (generateChannel cexTaps) 24).map (fun r : ℝ => (r : ℂ))) := by
  unfold pipelineChannelSpectrum
  rw [cexN_eq]

/-- The equalized spectrum of the counterexample, bin by bin: the good bins
reproduce the input spectrum, the five tiny bins are scaled by
`H/(H+epsilon)`. -/
theorem cex_bin_value (k : ℕ) (hk : k < 24) :
    cexX k * ((pipelineChannelSpectrum cexBits 1 cexTaps).getD k 0)
        * equalizerE ((pipelineChannelSpectrum cexBits 1 cexTaps).getD k 0)
      = if k ∈ ({4, 8, 12, 16, 20} : Finset ℕ) then
          cexX k * (((pipelineChannelSpectrum cexBits 1 cexTaps).getD k 0)
            * (((pipelineChannelSpectrum cexBits 1 cexTaps).getD k 0 + (epsilon : ℂ))⁻¹))
        else cexX k := by
  by_cases hmem : k ∈ ({4, 8, 12, 16, 20} : Finset ℕ)
  · rw [if_pos hmem]
    have htiny := (cex_tiny_all k hmem).2.1
    unfold equalizerE eqDenom
    rw [if_pos htiny, one_div]
    ring
  · rw [if_neg hmem]
    have hgood := cex_good_all k hk hmem
    have hne : (pipelineChannelSpectrum cexBits 1 cexTaps).getD k 0 ≠ 0 := by
      intro h0
      rw [h0, map_zero] at hgood
      have : (0:ℝ) < epsilon := by unfold epsilon; norm_num
      linarith
    unfold equalizerE eqDenom
    rw [if_neg (not_lt.mpr hgood), one_div, mul_assoc, mul_inv_cancel₀ hne, mul_one]

/-- Per tiny bin, the surviving contribution is at most `0.14` in modulus. -/
theorem cex_bin_S_bound (k : ℕ) (hmem : k ∈ ({4, 8, 12, 16, 20} : Finset ℕ)) :
    Complex.abs (cexX k * (((pipelineChannelSpectrum cexBits 1 cexTaps).getD k 0)
      * (((pipelineChannelSpectrum cexBits 1 cexTaps).getD k 0 + (epsilon : ℂ))⁻¹)))
      ≤ 0.14 := by
  have hk24 : k < 24 := by
    fin_cases hmem <;> norm_num
  have hX := cex_X_bound k hk24
  have hH := (cex_tiny_all k hmem).1
  have hden : (9.92e-7 : ℝ) ≤ Complex.abs
      ((pipelineChannelSpectrum cexBits 1 cexTaps).getD k 0 + (epsilon : ℂ)) := by
    have hlow := cabs_lower ((epsilon : ℝ) : ℂ) ((pipelineChannelSpectrum cexBits 1 cexTaps).getD k 0)
    rw [Complex.abs_ofReal, abs_of_pos (by unfold epsilon; norm_num)] at hlow
    have hcomm : ((epsilon : ℝ) : ℂ) + (pipelineChannelSpectrum cexBits 1 cexTaps).getD k 0
        = (pipelineChannelSpectrum cexBits 1 cexTaps).getD k 0 + (epsilon : ℂ) := by
      ring
    rw [hcomm] at hlow
    linarith [hlow, hH, show epsilon = (1e-6:ℝ) from rfl]
  rw [map_mul, map_mul, map_inv₀]
  have hinv : (Complex.abs ((pipelineChannelSpectrum cexBits 1 cexTaps).getD k 0
      + (epsilon : ℂ)))⁻¹ ≤ (9.92e-7 : ℝ)⁻¹ := by
    apply inv_anti₀ (by norm_num) hden
  have habsnn := Complex.abs.nonneg ((pipelineChannelSpectrum cexBits 1 cexTaps).getD k 0)
  have hinvnn : (0:ℝ) ≤ (Complex.abs ((pipelineChannelSpectrum cexBits 1 cexTaps).getD k 0
      + (epsilon : ℂ)))⁻¹ := inv_nonneg.mpr (Complex.abs.nonneg _)
  calc Complex.abs (cexX k) * (Complex.abs ((pipelineChannelSpectrum cexBits 1 cexTaps).getD k 0)
        * (Complex.abs ((pipelineChannelSpectrum cexBits 1 cexTaps).getD k 0 + (epsilon : ℂ)))⁻¹)
      ≤ 17 * ((8e-9 : ℝ) * (9.92e-7 : ℝ)⁻¹) := by
        apply mul_le_mul hX ?_ (mul_nonneg habsnn hinvnn) (by norm_num)
        exact mul_le_mul hH hinv hinvnn (by norm_num)
    _ ≤ 0.14 := by norm_num

/-- The real part of the equalized spectrum summed over all 24 bins is at most
`-4.3`: the exact `24 - 29 = -5` from the bins, plus at most `0.7` of leakage
through the five guarded bins. -/
theorem cex_sum_total :
    (∑ k ∈ Finset.range 24,
      cexX k * ((pipelineChannelSpectrum cexBits 1 cexTaps).getD k 0)
        * equalizerE ((pipelineChannelSpectrum cexBits 1 cexTaps).getD k 0)).re ≤ -4.3 := by
  rw [Finset.sum_congr rfl (fun k hk => cex_bin_value k (Finset.mem_range.mp hk))]
  rw [← Finset.sum_filter_add_sum_filter_not (Finset.range 24)
    (fun k => k ∈ ({4, 8, 12, 16, 20} : Finset ℕ))]
  have hfpos : (Finset.range 24).filter (fun k => k ∈ ({4, 8, 12, 16, 20} : Finset ℕ))
      = ({4, 8, 12, 16, 20} : Finset ℕ) := by decide
  have hpos_congr : ∀ k ∈ (Finset.range 24).filter
      (fun k => k ∈ ({4, 8, 12, 16, 20} : Finset ℕ)),
      (if k ∈ ({4, 8, 12, 16, 20} : Finset ℕ) then
          cexX k * (((pipelineChannelSpectrum cexBits 1 cexTaps).getD k 0)
            * (((pipelineChannelSpectrum cexBits 1 cexTaps).getD k 0 + (epsilon : ℂ))⁻¹))
        else cexX k)
      = cexX k * (((pipelineChannelSpectrum cexBits 1 cexTaps).getD k 0)
            * (((pipelineChannelSpectrum cexBits 1 cexTaps).getD k 0 + (epsilon : ℂ))⁻¹)) := by
    intro k hk
    rw [if_pos (Finset.mem_filter.mp hk).2]
  have hneg_congr : ∀ k ∈ (Finset.range 24).filter
      (fun k => ¬ k ∈ ({4, 8, 12, 16, 20} : Finset ℕ)),
      (if k ∈ ({4, 8, 12, 16, 20} : Finset ℕ) then
          cexX k * (((pipelineChannelSpectrum cexBits 1 cexTaps).getD k 0)
            * (((pipelineChannelSpectrum cexBits 1 cexTaps).getD k 0 + (epsilon : ℂ))⁻¹))
        else cexX k)
      = cexX k := by
    intro k hk
    rw [if_neg (Finset.mem_filter.mp hk).2]
  rw [Finset.sum_congr rfl hpos_congr, Finset.sum_congr rfl hneg_congr, hfpos]
  have hnegsum : ∑ k ∈ (Finset.range 24).filter
      (fun k => ¬ k ∈ ({4, 8, 12, 16, 20} : Finset ℕ)), cexX k = -5 := by
    have hsplit := Finset.sum_filter_add_sum_filter_not (Finset.range 24)
      (fun k => k ∈ ({4, 8, 12, 16, 20} : Finset ℕ)) cexX
    rw [hfpos, cex_sum_X_S, cex_sum_X_all] at hsplit
    linear_combination hsplit
  rw [hnegsum]
  rw [Complex.add_re]
  have hR : Complex.abs (∑ k ∈ ({4, 8, 12, 16, 20} : Finset ℕ),
      cexX k * (((pipelineChannelSpectrum cexBits 1 cexTaps).getD k 0)
        * (((pipelineChannelSpectrum cexBits 1 cexTaps).getD k 0 + (epsilon : ℂ))⁻¹)))
      ≤ 0.7 := by
    refine le_trans (Complex.abs.sum_le _ _) ?_
    refine le_trans (Finset.sum_le_sum (fun k hk => cex_bin_S_bound k hk)) ?_
    rw [Finset.sum_const]
    norm_num
  have hre := Complex.re_le_abs (∑ k ∈ ({4, 8, 12, 16, 20} : Finset ℕ),
      cexX k * (((pipelineChannelSpectrum cexBits 1 cexTaps).getD k 0)
        * (((pipelineChannelSpectrum cexBits 1 cexTaps).getD k 0 + (epsilon : ℂ))⁻¹)))
  have hm5 : ((-5 : ℂ)).re = -5 := by norm_num
  rw [hm5]
  linarith

/-- The recovered signal of the counterexample at decode index 0 is not
positive, although the transmitted bit 0 is `'1'`. -/
theorem cex_xrec0_nonpos :
    ((ifft (List.zipWith (· * ·)
        (fft ((convolveSignals (generateSignal cexBits 1) (generateChannel cexTaps)).map
          (fun r : ℝ => (r : ℂ))))
        ((fft ((padTo (generateChannel cexTaps) 24).map (fun r : ℝ => (r : ℂ)))).map
          equalizerE))).map Complex.re).getD 0 0 ≤ 0 := by
  have hconv24 : (convolveSignals (generateSignal cexBits 1) (generateChannel cexTaps)).length
      = 24 := by
    rw [convolveSignals_length, cex_x_length, cex_h_length]
  have hYlen : (fft ((convolveSignals (generateSignal cexBits 1)
      (generateChannel cexTaps)).map (fun r : ℝ => (r : ℂ)))).length = 24 := by
    rw [fft_length, List.length_map, hconv24]
  have hHlen : (fft ((padTo (generateChannel cexTaps) 24).map (fun r : ℝ => (r : ℂ)))).length
      = 24 := by
    rw [fft_length, List.length_map, padTo_length]
  have hElen : ((fft ((padTo (generateChannel cexTaps) 24).map
      (fun r : ℝ => (r : ℂ)))).map equalizerE).length = 24 := by
    rw [List.length_map, hHlen]
  have hZlen : (List.zipWith (· * ·)
      (fft ((convolveSignals (generateSignal cexBits 1) (generateChannel cexTaps)).map
        (fun r : ℝ => (r : ℂ))))
      ((fft ((padTo (generateChannel cexTaps) 24).map (fun r : ℝ => (r : ℂ)))).map
        equalizerE)).length = 24 := by
    rw [List.length_zipWith, hYlen, hElen]
    norm_num
  have hilen : (ifft (List.zipWith (· * ·)
      (fft ((convolveSignals (generateSignal cexBits 1) (generateChannel cexTaps)).map
        (fun r : ℝ => (r : ℂ))))
      ((fft ((padTo (generateChannel cexTaps) 24).map (fun r : ℝ => (r : ℂ)))).map
        equalizerE))).length = 24 := by
    rw [ifft_length, hZlen]
  rw [List.getD_eq_getElem _ _ (by rw [List.length_map, hilen]; norm_num : (0:ℕ) <
    ((ifft (List.zipWith (· * ·)
      (fft ((convolveSignals (generateSignal cexBits 1) (generateChannel cexTaps)).map
        (fun r : ℝ => (r : ℂ))))
      ((fft ((padTo (generateChannel cexTaps) 24).map (fun r : ℝ => (r : ℂ)))).map
        equalizerE))).map Complex.re).length)]
  rw [List.getElem_map]
  rw [← List.getD_eq_getElem _ 0 (by rw [hilen]; norm_num : (0:ℕ) <
    (ifft (List.zipWith (· * ·)
      (fft ((convolveSignals (generateSignal cexBits 1) (generateChannel cexTaps)).map
        (fun r : ℝ => (r : ℂ))))
      ((fft ((padTo (generateChannel cexTaps) 24).map (fun r : ℝ => (r : ℂ)))).map
        equalizerE))).length)]
  rw [ifft_getD _ 0 (by rw [hZlen]; norm_num)]
  rw [hZlen]
  have hexp1 : ∀ k ∈ Finset.range 24,
      (List.zipWith (· * ·)
        (fft ((convolveSignals (generateSignal cexBits 1) (generateChannel cexTaps)).map
          (fun r : ℝ => (r : ℂ))))
        ((fft ((padTo (generateChannel cexTaps) 24).map (fun r : ℝ => (r : ℂ)))).map
          equalizerE)).getD k 0
        * Complex.exp (2 * Real.pi * Complex.I * k * ((0:ℕ):ℂ) / ((24:ℕ):ℂ))
      = cexX k * ((pipelineChannelSpectrum cexBits 1 cexTaps).getD k 0)
          * equalizerE ((pipelineChannelSpectrum cexBits 1 cexTaps).getD k 0) := by
    intro k hk
    have hk24 := Finset.mem_range.mp hk
    have hz : Complex.exp (2 * Real.pi * Complex.I * k * ((0:ℕ):ℂ) / ((24:ℕ):ℂ)) = 1 := by
      norm_num
    rw [hz, mul_one]
    rw [List.getD_eq_getElem _ _ (by rw [hZlen]; exact hk24)]
    rw [List.getElem_zipWith]
    have hcv := fft_convolve_getD (generateSignal cexBits 1) (generateChannel cexTaps)
      (by rw [cex_x_length]; norm_num) (by rw [cex_h_length]; norm_num) k
      (by rw [cex_x_length, cex_h_length]; norm_num; exact hk24)
    rw [cex_x_length, cex_h_length] at hcv
    rw [show (19 + 6 - 1 : ℕ) = 24 by norm_num] at hcv
    have hbYk : k < (fft ((convolveSignals (generateSignal cexBits 1)
        (generateChannel cexTaps)).map (fun r : ℝ => (r : ℂ)))).length := by
      rw [hYlen]; exact hk24
    have hbEk : k < ((fft ((padTo (generateChannel cexTaps) 24).map
        (fun r : ℝ => (r : ℂ)))).map equalizerE).length := by
      rw [hElen]; exact hk24
    have hYk : (fft ((convolveSignals (generateSignal cexBits 1)
        (generateChannel cexTaps)).map (fun r : ℝ => (r : ℂ))))[k]
        = (fft ((convolveSignals (generateSignal cexBits 1)
          (generateChannel cexTaps)).map (fun r : ℝ => (r : ℂ)))).getD k 0 :=
      (List.getD_eq_getElem _ _ _).symm
    rw [hYk, hcv]
    have hEk : ((fft ((padTo (generateChannel cexTaps) 24).map
        (fun r : ℝ => (r : ℂ)))).map equalizerE)[k]
        = equalizerE ((fft ((padTo (generateChannel cexTaps) 24).map
          (fun r : ℝ => (r : ℂ)))).getD k 0) := by
      rw [List.getElem_map]
      rw [← List.getD_eq_getElem _ 0 (by rw [hHlen]; exact hk24)]
    rw [hEk]
    rw [← cex_spectrum_eq]
    have hXk : cexX k = (fft ((padTo (generateSignal cexBits 1) 24).map
        (fun r : ℝ => (r : ℂ)))).getD k 0 := rfl
    rw [← hXk]
  rw [Finset.sum_congr rfl hexp1]
  have hdiv : ((∑ k ∈ Finset.range 24,
      cexX k * ((pipelineChannelSpectrum cexBits 1 cexTaps).getD k 0)
        * equalizerE ((pipelineChannelSpectrum cexBits 1 cexTaps).getD k 0))
      / ((24:ℕ):ℂ)).re
      = (24:ℝ)⁻¹ * (∑ k ∈ Finset.range 24,
        cexX k * ((pipelineChannelSpectrum cexBits 1 cexTaps).getD k 0)
          * equalizerE ((pipelineChannelSpectrum cexBits 1 cexTaps).getD k 0)).re := by
    rw [div_eq_mul_inv]
    rw [show (((24:ℕ):ℂ))⁻¹ = (((24:ℝ)⁻¹ : ℝ) : ℂ) by push_cast; ring]
    rw [mul_comm, Complex.re_ofReal_mul]
  rw [hdiv]
  have htot := cex_sum_total
  nlinarith [htot]

theorem cex_xrec_len : ((ifft (List.zipWith (· * ·)
    (fft ((convolveSignals (generateSignal cexBits 1) (generateChannel cexTaps)).map
      (fun r : ℝ => (r : ℂ))))
    ((fft ((padTo (generateChannel cexTaps) 24).map (fun r : ℝ => (r : ℂ)))).map
      equalizerE))).map Complex.re).length = 24 := by
  have hYlen : (fft ((convolveSignals (generateSignal cexBits 1)
      (generateChannel cexTaps)).map (fun r : ℝ => (r : ℂ)))).length = 24 := by
    rw [fft_length, List.length_map, convolveSignals_length, cex_x_length, cex_h_length]
  have hElen : ((fft ((padTo (generateChannel cexTaps) 24).map
      (fun r : ℝ => (r : ℂ)))).map equalizerE).length = 24 := by
    rw [List.length_map, fft_length, List.length_map, padTo_length]
  rw [List.length_map, ifft_length, List.length_zipWith, hYlen, hElen]
  norm_num

theorem performEqualization_head_zero (Y E : List ℂ) (m : ℕ)
    (hlen : 0 < ((ifft (List.zipWith (· * ·) Y E)).map Complex.re).length)
    (hval : ((ifft (List.zipWith (· * ·) Y E)).map Complex.re).getD 0 0 ≤ 0) :
    ∃ t, performEqualization Y E (m + 1) 1 = '0' :: t := by
  refine ⟨(List.map Nat.succ (List.range m)).filterMap (fun i =>
    if i * 1 + 1 / 2 < ((ifft (List.zipWith (· * ·) Y E)).map Complex.re).length then
      some (if 0 < ((ifft (List.zipWith (· * ·) Y E)).map Complex.re).getD (i * 1 + 1 / 2) 0
        then '1' else '0')
    else none), ?_⟩
  show (List.range (m + 1)).filterMap (fun i =>
      if i * 1 + 1 / 2 < ((ifft (List.zipWith (· * ·) Y E)).map Complex.re).length then
        some (if 0 < ((ifft (List.zipWith (· * ·) Y E)).map Complex.re).getD (i * 1 + 1 / 2) 0
          then '1' else '0')
      else none) = _
  rw [List.range_succ_eq_map, List.filterMap_cons]
  have h0 : (if (0:ℕ) * 1 + 1 / 2 < ((ifft (List.zipWith (· * ·) Y E)).map Complex.re).length
      then
        some (if 0 < ((ifft (List.zipWith (· * ·) Y E)).map Complex.re).getD
          ((0:ℕ) * 1 + 1 / 2) 0 then '1' else '0')
      else none) = some '0' := by
    rw [show (0:ℕ) * 1 + 1 / 2 = 0 by norm_num]
    rw [if_pos hlen, if_neg (not_lt.mpr hval)]
  rw [h0]

theorem cex_decode_ne :
    performEqualization
      (fft ((convolveSignals (generateSignal cexBits 1) (generateChannel cexTaps)).map
        (fun r : ℝ => (r : ℂ))))
      ((fft ((padTo (generateChannel cexTaps) 24).map (fun r : ℝ => (r : ℂ)))).map
        equalizerE)
      17 1 ≠ cexBits := by
  intro heq
  obtain ⟨t, ht⟩ := performEqualization_head_zero
    (fft ((convolveSignals (generateSignal cexBits 1) (generateChannel cexTaps)).map
      (fun r : ℝ => (r : ℂ))))
    ((fft ((padTo (generateChannel cexTaps) 24).map (fun r : ℝ => (r : ℂ)))).map
      equalizerE)
    16 (by rw [cex_xrec_len]; norm_num) cex_xrec0_nonpos
  rw [show (16 + 1 : ℕ) = 17 from rfl] at ht
  rw [ht] at heq
  have hhead := congrArg List.headI heq
  simp [cexBits] at hhead

/-- **C1 (counterexample)**: the 17-bit input `10000010000010000` at
`samplesPerSymbol = 1` through the geometric channel
`(j, (1 - 1e-9)^j), j = 0..5`, with `noiseVariance = 0`, satisfies every
hypothesis of the claim — non-empty `'0'`/`'1'` string and a channel whose
zero-padded FFT has no exact spectral nulls — yet the pipeline's
`recoveredBits` differ from the input: five bins have modulus below the
equalizer's `epsilon` guard, the guard perturbs them, and decoded bit 0
flips from `'1'` to `'0'`. -/
theorem pipeline_noiseless_roundtrip_counterexample :
    cexBits ≠ [] ∧ (∀ c ∈ cexBits, c = '0' ∨ c = '1') ∧ (1 ≤ 1) ∧
    (∀ k < (generateSignal cexBits 1).length + (generateChannel cexTaps).length - 1,
      (pipelineChannelSpectrum cexBits 1 cexTaps).getD k 0 ≠ 0) ∧
    pipeline cexBits 1 cexTaps 0 (fun _ => (0, 0)) ≠ cexBits := by
  refine ⟨by simp [cexBits], by decide, le_refl 1, ?_, ?_⟩
  · rw [cexN_eq]
    intro k hk
    by_cases hmem : k ∈ ({4, 8, 12, 16, 20} : Finset ℕ)
    · exact (cex_tiny_all k hmem).2.2
    · intro hzero
      have hgood := cex_good_all k hk hmem
      rw [hzero] at hgood
      simp at hgood
      have heps : (0:ℝ) < epsilon := by norm_num [epsilon]
      linarith
  · have hpipe : pipeline cexBits 1 cexTaps 0 (fun _ => (0, 0))
        = performEqualization
            (fft ((addNoise (convolveSignals (generateSignal cexBits 1)
              (generateChannel cexTaps)) 0 (fun _ => (0, 0))).map (fun r : ℝ => (r : ℂ))))
            ((fft ((padTo (generateChannel cexTaps)
                (addNoise (convolveSignals (generateSignal cexBits 1)
                  (generateChannel cexTaps)) 0 (fun _ => (0, 0))).length).map
                (fun r : ℝ => (r : ℂ)))).map equalizerE)
            cexBits.length 1 := by
      simp only [pipeline, performFFT]
    rw [hpipe, addNoise_zero, convolveSignals_length, cex_x_length, cex_h_length]
    rw [show (19 + 6 - 1 : ℕ) = 24 by norm_num]
    rw [show cexBits.length = 17 by decide]
    exact cex_decode_ne
